import Mathlib

/-!
# Verification of the GMFold core (`src/GMfold.py`)

Shallow embedding of the dynamic-programming fold engine of GMFold:
the per-pair resolver `_e`, the fill procedure `_cache`, the candidate
minimum `_min_struct`, the exterior multi-branch block of `gmfold`, the
traceback `gm_traceback` / `_trackback_energy`, and the dot-bracket
encoder `gm_dot_bracket`.

Python floats are modelled as rationals extended with the two infinities
(`PyFloat`); `round(x, 1)` is modelled as round-half-to-even at one
decimal place, which is Python 3 semantics on exactly representable
values.  Runtime exceptions (`TypeError` from unpacking a non-iterable
or subscripting `None`, `IndexError` from out-of-range list access,
`NameError` from an unbound local) are modelled with `Except PyErr`.

The external collaborators of the core (graph-matching candidate index,
thermodynamic energy tables and functions, combination enumeration) are
not part of the analysed source; following the specification they are
modelled as opaque pure functions bundled in an `Ext` record, or, where
the specification fixes their shape, as concrete definitions marked
`Modelled from the spec`.
-/

set_option maxRecDepth 4000

namespace GMFold

/-- Python runtime exceptions relevant to the modelled code paths. -/
inductive PyErr where
  | typeError
  | valueError
  | indexError
  | nameError
  deriving DecidableEq, Repr

/-- A Python float restricted to the values the fold code manipulates:
rationals plus the two infinities. -/
inductive PyFloat where
  | negInf
  | fin (q : ℚ)
  | posInf
  deriving DecidableEq, Repr

namespace PyFloat

/-- `<` on Python floats (no NaN appears on the modelled paths). -/
def lt : PyFloat → PyFloat → Bool
  | negInf, negInf => false
  | negInf, _ => true
  | fin _, negInf => false
  | fin a, fin b => decide (a < b)
  | fin _, posInf => true
  | posInf, _ => false

/-- Addition on Python floats.  The source never adds `-inf` to `+inf`
on a live path (every such sum is guarded); that case is given the junk
value `posInf`, which is rejected by the same guards that reject NaN. -/
def add : PyFloat → PyFloat → PyFloat
  | negInf, posInf => posInf
  | posInf, negInf => posInf
  | negInf, _ => negInf
  | _, negInf => negInf
  | posInf, _ => posInf
  | _, posInf => posInf
  | fin a, fin b => fin (a + b)

/-- Negation on Python floats. -/
def neg : PyFloat → PyFloat
  | negInf => posInf
  | posInf => negInf
  | fin a => fin (-a)

/-- Subtraction on Python floats. -/
def sub (a b : PyFloat) : PyFloat := a.add b.neg

/-- The rational value of a finite Python float (junk `0` on infinities). -/
def toQ : PyFloat → ℚ
  | fin q => q
  | _ => 0

/-- Finiteness predicate. -/
def isFin : PyFloat → Prop
  | fin _ => True
  | _ => False

instance : DecidablePred isFin := by
  intro a
  cases a <;> simp [isFin] <;> infer_instance

end PyFloat

/-- Floor of a rational as an integer, computably. -/
def qfloor (q : ℚ) : ℤ := q.num.fdiv q.den

/-- Round-half-to-even of a rational to the nearest integer
(Python 3 `round` semantics on exactly representable values). -/
def roundHalfEven (x : ℚ) : ℤ :=
  let f := qfloor x
  let r := x - (f : ℚ)
  if r < 1/2 then f
  else if 1/2 < r then f + 1
  else if f % 2 = 0 then f else f + 1

/-- Python `round(x, 1)` on the modelled floats.  On infinities Python
raises `OverflowError`; the theorems below only invoke it on finite
values, so infinities are returned unchanged here. -/
def roundTo1 : PyFloat → PyFloat
  | .fin q => .fin ((roundHalfEven (10 * q) : ℚ) / 10)
  | e => e

/-- A rational is an exact multiple of one tenth. -/
def tenth (q : ℚ) : Prop := (10 * q).den = 1

instance : DecidablePred tenth := by
  intro q
  unfold tenth
  infer_instance

/-- A Python float that is finite and a multiple of one tenth. -/
def tenthE : PyFloat → Prop
  | .fin q => tenth q
  | _ => False

instance : DecidablePred tenthE := by
  intro a
  cases a <;> simp [tenthE] <;> infer_instance

theorem qfloor_intCast (k : ℤ) : qfloor (k : ℚ) = k := by
  simp [qfloor, Rat.num_intCast, Rat.den_intCast, Int.fdiv_one]

theorem roundHalfEven_intCast (k : ℤ) : roundHalfEven (k : ℚ) = k := by
  simp [roundHalfEven, qfloor_intCast]

theorem den_one_eq_num (q : ℚ) (h : q.den = 1) : (q.num : ℚ) = q := by
  have := Rat.num_div_den q
  rw [h] at this
  simpa using this

/-- On tenth-multiples, `round(·, 1)` is the identity. -/
theorem roundTo1_tenth (q : ℚ) (h : tenth q) : roundTo1 (.fin q) = .fin q := by
  have h10 : ((10 * q).num : ℚ) = 10 * q := den_one_eq_num _ h
  show PyFloat.fin ((roundHalfEven (10 * q) : ℚ) / 10) = PyFloat.fin q
  rw [← h10, roundHalfEven_intCast, h10]
  congr 1
  field_simp

theorem tenth_add (a b : ℚ) (ha : tenth a) (hb : tenth b) : tenth (a + b) := by
  unfold tenth at *
  have ha' : ((10 * a).num : ℚ) = 10 * a := den_one_eq_num _ ha
  have hb' : ((10 * b).num : ℚ) = 10 * b := den_one_eq_num _ hb
  have : 10 * (a + b) = (((10 * a).num + (10 * b).num : ℤ) : ℚ) := by
    push_cast
    rw [ha', hb']
    ring
  rw [this, Rat.den_intCast]

theorem tenth_neg (a : ℚ) (ha : tenth a) : tenth (-a) := by
  unfold tenth at *
  have : 10 * (-a) = -(10 * a) := by ring
  rw [this, Rat.neg_den, ha]

theorem tenth_sub (a b : ℚ) (ha : tenth a) (hb : tenth b) : tenth (a - b) := by
  have := tenth_add a (-b) ha (tenth_neg b hb)
  simpa [sub_eq_add_neg] using this

theorem tenth_zero : tenth 0 := by norm_num [tenth]

/-- One structural feature: energy, descriptive label, and the list of
enclosed base-pair references (`Struct` from `gm_energy_functions`,
fields as used by the analysed source). -/
structure Struct where
  e : PyFloat
  desc : String
  ij : List (Nat × Nat)
  deriving DecidableEq, Repr

/-- `STRUCT_DEFAULT = Struct(-math.inf)`: the "unfilled" sentinel. -/
def STRUCT_DEFAULT : Struct := ⟨.negInf, "", []⟩

/-- `STRUCT_NULL = Struct(math.inf)`: the "no valid structure" sentinel. -/
def STRUCT_NULL : Struct := ⟨.posInf, "", []⟩

/-- `Struct.with_ij`: same energy and label, replaced pair references. -/
def Struct.with_ij (s : Struct) (ij : List (Nat × Nat)) : Struct :=
  ⟨s.e, s.desc, ij⟩

/-- The energy cache: a list of rows of `Struct`s, as in the source. -/
abbrev Cache := List (List Struct)

/-- Inert default for (unreachable) out-of-range cache reads.  In the
source an out-of-range read raises `IndexError`; every read performed by
the theorems below is in range. -/
def JUNK_STRUCT : Struct := ⟨.fin 0, "", []⟩

/-- Read cache cell `(i, j)`. -/
def getS (c : Cache) (i j : Nat) : Struct :=
  ((getElem? c i).bind (fun row => getElem? row j)).getD JUNK_STRUCT

/-- Write cache cell `(i, j)` (no-op out of range, unreachable in the
modelled executions). -/
def setS (c : Cache) (i j : Nat) (v : Struct) : Cache :=
  match getElem? c i with
  | none => c
  | some row => List.set c i (List.set row j v)

theorem getS_setS_ne (c : Cache) (i j a b : Nat) (v : Struct)
    (h : (a, b) ≠ (i, j)) : getS (setS c i j v) a b = getS c a b := by
  unfold getS setS
  cases hrow : getElem? c i with
  | none => rfl
  | some row =>
    by_cases hai : a = i
    · subst hai
      have hbj : b ≠ j := by
        intro hb
        exact h (by rw [hb])
      have hlt : a < c.length := by
        by_contra hge
        rw [List.getElem?_eq_none (Nat.le_of_not_lt hge)] at hrow
        exact Option.noConfusion hrow
      have h1 : getElem? (List.set c a (List.set row j v)) a =
          some (List.set row j v) :=
        List.getElem?_set_eq_of_lt _ (by simpa using hlt)
      rw [h1, hrow]
      simp [List.getElem?_set_ne (fun h' => hbj h'.symm)]
    · rw [List.getElem?_set_ne (fun h' => hai h'.symm)]

theorem getS_setS_eq (c : Cache) (i j : Nat) (v : Struct)
    (hi : i < c.length)
    (hj : ∀ row, getElem? c i = some row → j < row.length) :
    getS (setS c i j v) i j = v := by
  unfold getS setS
  cases hrow : getElem? c i with
  | none =>
    rw [List.getElem?_eq_getElem hi] at hrow
    exact absurd hrow (by simp)
  | some row =>
    have hjr : j < row.length := hj row hrow
    have h1 : getElem? (List.set c i (List.set row j v)) i =
        some (List.set row j v) :=
      List.getElem?_set_eq_of_lt _ (by simpa using hi)
    rw [h1]
    simp [List.getElem?_set_eq_of_lt _ (by simpa using hjr)]


/-- External collaborators of the core, consumed as opaque pure
functions (spec §6): complementarity lookup and nearest-neighbor table
of the selected energy map, the `_pair` label builder, and the
hairpin/stack/bulge/interior-loop energy functions, each returning a
real energy.  `mbE` / `oeE` give the energy of `gm_multi_branch` /
`open_ending_branch` (`none` models a falsy result). -/
structure Ext where
  complement : Char → Char
  nnMem : String → Bool
  pairLabel : List Char → Nat → Nat → Nat → Nat → String
  hairpinE : List Char → Nat → Nat → ℚ → ℚ
  stackE : List Char → Nat → Nat → Nat → Nat → ℚ → ℚ
  bulgeE : List Char → Nat → Nat → Nat → Nat → ℚ → ℚ
  ilE : List Char → Nat → Nat → Nat → Nat → ℚ → ℚ
  mbE : List Char → Nat → Nat → ℚ → Cache → List (Nat × Nat) → Option ℚ

/-- Modelled from the spec: `gm_multi_branch` (external, in
`gm_energy_functions`) computes the closed multi-branch loop energy for
the branch combination and "record[s] all members as children"; a falsy
result models no valid structure. -/
def gm_multi_branch (ext : Ext) (seq : List Char) (i j : Nat) (temp : ℚ)
    (cache : Cache) (combo : List (Nat × Nat)) : Option Struct :=
  (ext.mbE seq i j temp cache combo).map
    (fun q => ⟨.fin q, "BIFURCATION:" ++ toString combo.length ++ "h", combo⟩)

/-- Modelled from the spec: `open_ending_branch` (external) computes the
open (no closing pair) multi-branch energy; its result is the feature
whose label begins `OPEN_ENDING_MULTI_BRANCH`, with the combination's
members as children. -/
def open_ending_branch (oe : Cache → List (Nat × Nat) → Option ℚ)
    (cache : Cache) (combo : List (Nat × Nat)) : Option Struct :=
  (oe cache combo).map
    (fun q => ⟨.fin q, "OPEN_ENDING_MULTI_BRANCH", combo⟩)

/-- Two candidate pairs occupy disjoint sub-ranges. -/
def pairsDisjoint (p q : Nat × Nat) : Bool :=
  decide (p.2 < q.1) || decide (q.2 < p.1)

/-- A grouping is valid when its members are pairwise disjoint. -/
def comboOK : List (Nat × Nat) → Bool
  | [] => true
  | p :: rest => rest.all (fun q => pairsDisjoint p q) && comboOK rest

/-- Modelled from the spec: `all_combinations(candidates, r1, r2)`
(external) returns all valid non-overlapping groupings of the candidate
set with between `r1` and `r2` members. -/
def all_combinations (l : List (Nat × Nat)) (r1 r2 : Nat) :
    List (List (Nat × Nat)) :=
  l.sublists.filter
    (fun c => decide (r1 ≤ c.length) && decide (c.length ≤ r2) && comboOK c)

/-- The loop body of `_min_struct` (lines 343-345). -/
def minStep (s t : Struct) : Struct :=
  if t.e ≠ PyFloat.negInf ∧ t.e.lt s.e then t else s

/-- `_min_struct` (lines 332-346): the struct with the lowest free
energy that is not `-inf`, starting from `STRUCT_NULL`. -/
def min_struct (structs : List Struct) : Struct :=
  structs.foldl minStep STRUCT_NULL

/-- The value `_e` hands back to its caller: Python returns either a
bare `Struct` (memo-hit and isolated-pair paths) or a
`(Struct, non_branches)` tuple (small-hairpin and generic paths). -/
inductive ERes where
  | single (s : Struct)
  | tuple (s : Struct) (nb : List (Nat × Nat))
  deriving DecidableEq, Repr

/-- The fill loop's `e, non_branches = _e(...)` unpacking: a bare
`Struct` is not an iterable of two elements, so Python 3 raises
`TypeError` on it. -/
def unpackE : ERes → Except PyErr (Struct × List (Nat × Nat))
  | .single _ => .error .typeError
  | .tuple s nb => .ok (s, nb)

/-- `non_branches.add((i, j))` on the modelled set. -/
def nbAdd (nb : List (Nat × Nat)) (p : Nat × Nat) : List (Nat × Nat) :=
  if p ∈ nb then nb else nb ++ [p]

/-- The loop-energy / label classification of one `E2` candidate
(lines 260-298): `none` models the `continue` of the infeasible
geometry; otherwise the loop energy and its descriptive label. -/
def e2_choice (ext : Ext) (seq : List Char) (n i j : Nat) (temp : ℚ)
    (bp : Nat × Nat) : Option (ℚ × String) :=
  if decide (bp.1 = i + 1) && decide (bp.2 + 1 = j) then
    if (0 < i ∧ j = n - 1) ∨ (i = 0 ∧ j < n - 1) then
      some (ext.stackE seq i bp.1 j bp.2 temp,
        "STACK_DE:" ++ ext.pairLabel seq i bp.1 j bp.2)
    else
      some (ext.stackE seq i bp.1 j bp.2 temp,
        "STACK:" ++ ext.pairLabel seq i bp.1 j bp.2)
  else if decide (i + 1 < bp.1) && decide (bp.2 + 1 < j)
      && !(ext.nnMem (ext.pairLabel seq i (i + 1) j (j - 1))
           || ext.nnMem (ext.pairLabel seq (bp.1 - 1) bp.1 (bp.2 + 1) bp.2))
  then
    if bp.1 - i = 2 ∧ j - bp.2 = 2 then
      some (ext.ilE seq i bp.1 j bp.2 temp,
        "STACK:" ++ String.mk ((seq.drop i).take (bp.1 - i + 1)) ++ "/"
          ++ String.mk ((seq.drop bp.2).take (j - bp.2 + 1)).reverse)
    else
      some (ext.ilE seq i bp.1 j bp.2 temp,
        "INTERIOR_LOOP:" ++ toString (bp.1 - i) ++ "/" ++ toString (j - bp.2))
  else if decide (i + 1 < bp.1) && !decide (bp.2 + 1 < j) then
    some (ext.bulgeE seq i bp.1 j bp.2 temp,
      "BULGE:" ++ toString (bp.1 - i))
  else if !decide (i + 1 < bp.1) && decide (bp.2 + 1 < j) then
    some (ext.bulgeE seq i bp.1 j bp.2 temp,
      "BULGE:" ++ toString (j - bp.2))
  else none

/-- One iteration of the `E2` loop body of `_e` (lines 252-303). -/
def e2_step (ext : Ext) (seq : List Char) (n i j : Nat) (temp : ℚ)
    (cache : Cache) (acc : Struct) (bp : Nat × Nat) : Struct :=
  if ext.complement (seq.getD bp.1 ' ') ≠ seq.getD bp.2 ' ' then acc
  else
    match e2_choice ext seq n i j temp bp with
    | none => acc
    | some (en, ty) =>
      if (PyFloat.fin en).add (getS cache bp.1 bp.2).e ≠ PyFloat.negInf
          ∧ ((PyFloat.fin en).add (getS cache bp.1 bp.2).e).lt acc.e then
        ⟨(PyFloat.fin en).add (getS cache bp.1 bp.2).e, ty, [(bp.1, bp.2)]⟩
      else acc

/-- `isolated_outer` (lines 232-234): `True` when the pair touches a
sequence boundary, else complementarity of `(i-1, j+1)` fails. -/
def isolatedOuterB (ext : Ext) (seq : List Char) (i j : Nat) : Bool :=
  if i ≠ 0 ∧ j < seq.length - 1 then
    decide (ext.complement (seq.getD (i - 1) ' ') ≠ seq.getD (j + 1) ' ')
  else true

/-- `isolated_inner` (line 235): complementarity of `(i+1, j-1)` fails. -/
def isolatedInnerB (ext : Ext) (seq : List Char) (i j : Nat) : Bool :=
  decide (ext.complement (seq.getD (i + 1) ' ') ≠ seq.getD (j - 1) ' ')

/-- The hairpin candidate `e1` (lines 242-243). -/
def e1Of (ext : Ext) (seq : List Char) (i j : Nat) (temp : ℚ) : Struct :=
  ⟨.fin (ext.hairpinE seq i j temp),
   "HAIRPIN:" ++ ext.pairLabel seq i (i + 1) j (j - 1), []⟩

/-- The stack / bulge / interior-loop candidate `e2` (lines 249-303):
fold of `e2_step` over the nested candidates, from `Struct(inf)`. -/
def e2Of (ext : Ext) (seq : List Char) (i j : Nat) (temp : ℚ)
    (cache : Cache) (S : Nat × Nat → List (Nat × Nat)) : Struct :=
  (S (i, j)).foldl (e2_step ext seq seq.length i j temp cache)
    ⟨.posInf, "", []⟩

/-- The loop body of the multi-branch candidate search
(lines 315-319). -/
def mbStep (ext : Ext) (seq : List Char) (i j : Nat) (temp : ℚ)
    (cache : Cache) (acc : Struct) (combo : List (Nat × Nat)) : Struct :=
  match gm_multi_branch ext seq i j temp cache combo with
  | some s => if s.e.lt acc.e then s else acc
  | none => acc

/-- The multi-branch candidate `e3` (lines 306-319). -/
def e3Of (ext : Ext) (seq : List Char) (i j : Nat) (temp : ℚ)
    (cache : Cache) (S : Nat × Nat → List (Nat × Nat))
    (nb : List (Nat × Nat)) (nBranches : Nat) : Struct :=
  if !isolatedOuterB ext seq i j || decide (i = 0)
      || decide (j = seq.length - 1) then
    if 2 ≤ (((S (i, j)).dedup).filter (fun bp => bp ∉ nb)).length then
      (all_combinations (((S (i, j)).dedup).filter (fun bp => bp ∉ nb))
        2 nBranches).foldl (mbStep ext seq i j temp cache) STRUCT_NULL
    else STRUCT_NULL
  else STRUCT_NULL

/-- `_e` (lines 199-328): find, store and return the minimum free
energy of the structure between `i` and `j`.  The returned `ERes`
records whether the Python function returns a bare `Struct` (memo-hit
at line 226, isolated-pair penalty at line 239) or a
`(Struct, non_branches)` tuple (small hairpin at line 246, generic
resolution at line 328); the returned `Cache` reflects the in-place
writes to `e_cache`. -/
def e_fn (ext : Ext) (seq : List Char) (i j : Nat) (temp : ℚ)
    (cache : Cache) (S : Nat × Nat → List (Nat × Nat))
    (nb : List (Nat × Nat)) (nBranches : Nat) : ERes × Cache :=
  if getS cache i j ≠ STRUCT_DEFAULT then (.single (getS cache i j), cache)
  else if isolatedOuterB ext seq i j && isolatedInnerB ext seq i j then
    (.single ⟨.fin 5000, "", []⟩, setS cache i j ⟨.fin 5000, "", []⟩)
  else if j - i = 4 then
    (.tuple (e1Of ext seq i j temp) nb,
     setS cache i j (e1Of ext seq i j temp))
  else
    (.tuple
      (min_struct [e1Of ext seq i j temp, e2Of ext seq i j temp cache S,
        e3Of ext seq i j temp cache S nb nBranches])
      (if PyFloat.lt (.fin 0)
            (min_struct [e1Of ext seq i j temp, e2Of ext seq i j temp cache S,
              e3Of ext seq i j temp cache S nb nBranches]).e
          ∨ min_struct [e1Of ext seq i j temp, e2Of ext seq i j temp cache S,
              e3Of ext seq i j temp cache S nb nBranches] =
            e3Of ext seq i j temp cache S nb nBranches
          ∨ min_struct [e1Of ext seq i j temp, e2Of ext seq i j temp cache S,
              e3Of ext seq i j temp cache S nb nBranches] =
            e1Of ext seq i j temp
        then nbAdd nb (i, j) else nb),
     setS cache i j
       (min_struct [e1Of ext seq i j temp, e2Of ext seq i j temp cache S,
         e3Of ext seq i j temp cache S nb nBranches]))

/-- `fixed_bp = [(k, n-1-k) for k in range(l_fix-1)]` (line 165). -/
def fixedBp (lfix n : Nat) : List (Nat × Nat) :=
  (List.range (lfix - 1)).map (fun k => (k, n - 1 - k))

/-- The mutable state threaded through the fill loops of `_cache`:
the cache, the `non_branches` set, the running best `(min_struct,
min_ene)`, and the Python local variable `e` (needed because the
fixed-stem branch reads `e` without assigning it: stale or unbound). -/
structure FillState where
  cache : Cache
  nb : List (Nat × Nat)
  minS : Option (Nat × Nat)
  minE : PyFloat
  lastE : Option Struct

/-- One iteration of the `l_fix == 0` fill loop (lines 157-162). -/
def fillStep0 (ext : Ext) (seq : List Char) (temp : ℚ)
    (S : Nat × Nat → List (Nat × Nat)) (nBranches : Nat)
    (st : FillState) (bp : Nat × Nat) : Except PyErr FillState :=
  let r := e_fn ext seq bp.1 bp.2 temp st.cache S st.nb nBranches
  match unpackE r.1 with
  | .error err => .error err
  | .ok (e, nb') =>
    if e.e.lt st.minE then .ok ⟨r.2, nb', some bp, e.e, some e⟩
    else .ok ⟨r.2, nb', st.minS, st.minE, some e⟩

/-- One iteration of the `l_fix > 0` fill loop (lines 166-193).  On the
fixed-stem branch the Python variable `e` is not assigned, so the
`if e.e < min_ene` test at line 191 reads the value left over from an
earlier iteration, or raises `NameError` if there is none. -/
def fillStepFix (ext : Ext) (seq : List Char) (temp : ℚ)
    (S : Nat × Nat → List (Nat × Nat)) (nBranches n lfix : Nat)
    (st : FillState) (bp : Nat × Nat) : Except PyErr FillState :=
  if bp ∈ fixedBp lfix n then
    let i := bp.1
    let j := bp.2
    let i1 := i + 1
    let j1 := j - 1
    if ext.complement (seq.getD i1 ' ') ≠ seq.getD j1 ' ' then .ok st
    else
      let pair := ext.pairLabel seq i i1 j j1
      let ty :=
        if (0 < i ∧ j = n - 1) ∨ (i = 0 ∧ j < n - 1) then "STACK_DE:" ++ pair
        else "STACK:" ++ pair
      let t := (PyFloat.fin (ext.stackE seq i i1 j j1 temp)).add
        (getS st.cache i1 j1).e
      let e2 : Struct :=
        if t ≠ PyFloat.negInf ∧ t.lt PyFloat.posInf then ⟨t, ty, [(i1, j1)]⟩
        else ⟨.posInf, "", []⟩
      let cache' := setS st.cache i j e2
      match st.lastE with
      | none => .error .nameError
      | some eOld =>
        if eOld.e.lt st.minE then .ok ⟨cache', st.nb, some bp, eOld.e, st.lastE⟩
        else .ok ⟨cache', st.nb, st.minS, st.minE, st.lastE⟩
  else
    let r := e_fn ext seq bp.1 bp.2 temp st.cache S st.nb nBranches
    match unpackE r.1 with
    | .error err => .error err
    | .ok (e, nb') =>
      if e.e.lt st.minE then .ok ⟨r.2, nb', some bp, e.e, some e⟩
      else .ok ⟨r.2, nb', st.minS, st.minE, some e⟩

/-- Run a fill step over a list of candidate pairs. -/
def fillPairs (step : FillState → (Nat × Nat) → Except PyErr FillState) :
    FillState → List (Nat × Nat) → Except PyErr FillState
  | st, [] => .ok st
  | st, bp :: rest =>
    match step st bp with
    | .error err => .error err
    | .ok st' => fillPairs step st' rest

/-- Stable insertion into a key-sorted association list. -/
def insD (x : Nat × List (Nat × Nat)) :
    List (Nat × List (Nat × Nat)) → List (Nat × List (Nat × Nat))
  | [] => [x]
  | y :: ys => if x.1 < y.1 then x :: y :: ys else y :: insD x ys

/-- `sorted(list(D.keys()), key=int)`: iterate the span groups of `D`
in ascending key order (stable insertion sort). -/
def sortD : List (Nat × List (Nat × Nat)) → List (Nat × List (Nat × Nat))
  | [] => []
  | x :: xs => insD x (sortD xs)

/-- The sequence of candidate pairs visited by the fill loops:
span groups in ascending key order, `set(D[d])` modelled as
order-preserving deduplication. -/
def fillOrder (D : List (Nat × List (Nat × Nat))) : List (Nat × Nat) :=
  (sortD D).foldr (fun e acc => e.2.dedup ++ acc) []

/-- `_cache` (lines 120-195): uppercase the sequence, convert the
temperature to Kelvin, select the energy map from `mode`, create the
all-sentinel cache and run the fill loop.  `raise(ValueError, msg)` at
line 143 raises the tuple `(ValueError, msg)` itself, which Python 3
rejects with `TypeError: exceptions must derive from BaseException`. -/
def gm_cache (extDNA extRNA : Ext) (seq : String) (temp : ℚ)
    (S : Nat × Nat → List (Nat × Nat)) (D : List (Nat × List (Nat × Nat)))
    (lfix nBranches : Nat) (mode : String) :
    Except PyErr (Cache × Option (Nat × Nat) × PyFloat) :=
  let sequ := seq.toList.map Char.toUpper
  let tempK := temp + 273.15
  match (if mode = "dna" then Except.ok extDNA
         else if mode = "rna" then Except.ok extRNA
         else Except.error PyErr.typeError :
         Except PyErr Ext) with
  | .error err => .error err
  | .ok ext =>
    let n := sequ.length
    let cache0 : Cache := List.replicate n (List.replicate n STRUCT_DEFAULT)
    let st0 : FillState := ⟨cache0, [], none, .posInf, none⟩
    let step :=
      if lfix = 0 then fillStep0 ext sequ tempK S nBranches
      else fillStepFix ext sequ tempK S nBranches n lfix
    match fillPairs step st0 (fillOrder D) with
    | .error err => .error err
    | .ok st => .ok (st.cache, st.minS, st.minE)

/-- One iteration of the exterior combination loop of `gmfold`
(lines 88-92).  Python short-circuits `e3_test and e3_test.e < ...`, so
`min_struct` is subscripted only when `open_ending_branch` returned a
truthy value; subscripting `None` raises `TypeError`. -/
def exteriorStep (oe : Cache → List (Nat × Nat) → Option ℚ) (n : Nat)
    (acc : Except PyErr (Cache × Option (Nat × Nat)))
    (combo : List (Nat × Nat)) : Except PyErr (Cache × Option (Nat × Nat)) :=
  match acc with
  | .error err => .error err
  | .ok (cache, minS) =>
    match open_ending_branch oe cache combo with
    | none => .ok (cache, minS)
    | some s =>
      match minS with
      | none => .error .typeError
      | some m =>
        if s.e.lt (getS cache m.1 m.2).e then
          .ok (setS cache 0 (n - 1) s, some (0, n - 1))
        else .ok (cache, minS)

/-- The exterior multi-branch block of `gmfold` (lines 76-92):
if the whole-sequence cell is beatable and no fixed stem was requested,
collect the favourable candidate pairs, enumerate their combinations and
possibly overwrite the whole-sequence cell.  `e_cache[0][n-1]` is read
before the `l_fix == 0` test, so an empty cache raises `IndexError`. -/
def exteriorResolve (oe : Cache → List (Nat × Nat) → Option ℚ)
    (cache : Cache) (minS : Option (Nat × Nat)) (minE : PyFloat)
    (bps : List (Nat × Nat)) (nBranches lfix n : Nat) :
    Except PyErr (Cache × Option (Nat × Nat)) :=
  match (getElem? cache 0).bind (fun row => getElem? row (n - 1)) with
  | none => .error .indexError
  | some c00 =>
    if (minE.lt c00.e || decide (c00 = STRUCT_DEFAULT)) && decide (lfix = 0)
    then
      let branches := (bps.dedup).filter
        (fun bp => (getS cache bp.1 bp.2).e.lt (.fin 0))
      let combos := all_combinations branches 1 nBranches
      combos.foldl (exteriorStep oe n) (.ok (cache, minS))
    else .ok (cache, minS)

/-- `_trackback_energy` (lines 407-423): each feature's energy becomes
`round(own absolute energy - next feature's absolute energy, 1)`, the
last one's `round(own absolute energy - 0.0, 1)`. -/
def trackback_energy : List Struct → List Struct
  | [] => []
  | [s] => [⟨roundTo1 (s.e.sub (.fin 0)), s.desc, s.ij⟩]
  | s :: t :: rest =>
    ⟨roundTo1 (s.e.sub t.e), s.desc, s.ij⟩ :: trackback_energy (t :: rest)

/-- The multi-branch assembly of `gm_traceback` (lines 399-403):
replace the energy of the last outer feature by
`round(last.e - e_sum, 1)` and append the branch features. -/
def tb_multi (outer : List Struct) (esum : PyFloat) (brs : List Struct) :
    List Struct :=
  outer.dropLast ++
    [⟨roundTo1 ((outer.getLastD STRUCT_NULL).e.sub esum),
      (outer.getLastD STRUCT_NULL).desc, (outer.getLastD STRUCT_NULL).ij⟩]
    ++ brs

mutual

/-- The `while True` loop of `gm_traceback` (lines 374-403), with the
buffer `structs` as accumulator and a fuel parameter standing in for
Python's unbounded iteration (`none` = fuel exhausted). -/
def tb_go : Nat → Nat → Nat → Cache → List Struct → Option (List Struct)
  | 0, _, _, _, _ => none
  | fuel + 1, i, j, cache, acc =>
    match (getS cache i j).ij with
    | [] => some (trackback_energy
        (acc ++ [(getS cache i j).with_ij [(i, j)]]))
    | [p] => tb_go fuel p.1 p.2 cache
        (acc ++ [(getS cache i j).with_ij [(i, j)]])
    | ps =>
      match tb_branches fuel ps cache with
      | none => none
      | some (esum, brs) =>
        some (tb_multi
          (trackback_energy (acc ++ [(getS cache i j).with_ij [(i, j)]]))
          esum brs)

/-- The branch loop of the multi-branch case of `gm_traceback`
(lines 392-397): recurse on every child pair, accumulating `e_sum` and
the concatenated branch features. -/
def tb_branches : Nat → List (Nat × Nat) → Cache →
    Option (PyFloat × List Struct)
  | _, [], _ => some (.fin 0, [])
  | 0, _ :: _, _ => none
  | fuel + 1, p :: ps, cache =>
    match tb_go fuel p.1 p.2 cache [] with
    | none => none
    | some tb =>
      match tb_branches fuel ps cache with
      | none => none
      | some (esum, brs) =>
        if tb ≠ [] ∧ (tb.headD STRUCT_NULL).ij ≠ [] then
          some ((getS cache p.1 p.2).e.add esum, tb ++ brs)
        else some (esum, brs)

end

/-- One step of the fixed-stem preprocessing of `gm_traceback`
(lines 364-366): `s.ij[0] = k, len(e_cache)-1-k` on the stem cell
`e_cache[k-1][len(e_cache)-k]`; assigning to index 0 of an empty list
raises `IndexError`. -/
def stemRewriteStep (cache : Cache) (k : Nat) : Except PyErr Cache :=
  let n := cache.length
  let s := getS cache (k - 1) (n - k)
  match s.ij with
  | [] => .error .indexError
  | _ :: rest =>
    .ok (setS cache (k - 1) (n - k) ⟨s.e, s.desc, (k, n - 1 - k) :: rest⟩)

/-- The fixed-stem preprocessing loop `for k in range(1, l_fix)`. -/
def stemRewrite (cache : Cache) (lfix : Nat) : Except PyErr Cache :=
  (List.range' 1 (lfix - 1)).foldl
    (fun acc k =>
      match acc with
      | .error err => .error err
      | .ok c => stemRewriteStep c k)
    (.ok cache)

/-- `gm_traceback` (lines 348-405): fixed-stem preprocessing and root
redirection, then the traversal loop. -/
def gm_traceback (fuel i j : Nat) (cache : Cache) (lfix : Nat) :
    Except PyErr (Option (List Struct)) :=
  if 1 < lfix then
    match stemRewrite cache lfix with
    | .error err => .error err
    | .ok cache' => .ok (tb_go fuel 0 (cache'.length - 1) cache' [])
  else if lfix = 1 then .ok (tb_go fuel 0 (cache.length - 1) cache [])
  else .ok (tb_go fuel i j cache [])

/-- `gmfold` (lines 55-94) downstream of the external graph-matching
stage: fill the cache, run the exterior multi-branch block, then
traceback from `min_struct` (subscripting `min_struct = None` raises
`TypeError`).  `S`, `D` and `bps` are the outputs of the external
`Aptamer_match` stage, taken as inputs here. -/
def gmfoldM (extDNA extRNA : Ext)
    (oe : Cache → List (Nat × Nat) → Option ℚ) (fuel : Nat) (seq : String)
    (temp : ℚ) (lfix nBranches : Nat) (mode : String)
    (S : Nat × Nat → List (Nat × Nat)) (D : List (Nat × List (Nat × Nat)))
    (bps : List (Nat × Nat)) : Except PyErr (Option (List Struct)) :=
  match gm_cache extDNA extRNA seq temp S D lfix nBranches mode with
  | .error err => .error err
  | .ok (cache, minS, minE) =>
    let n := seq.length
    match exteriorResolve oe cache minS minE bps nBranches lfix n with
    | .error err => .error err
    | .ok (cache', minS') =>
      match minS' with
      | none => .error .typeError
      | some m => gm_traceback fuel m.1 m.2 cache' lfix

/-- `gm_dot_bracket` (lines 99-117): dot-bracket encoding of a
structure list; `structs[0]` on an empty list raises `IndexError`. -/
def gm_dot_bracket (seq : String) (structs : List Struct) :
    Except PyErr String :=
  match structs with
  | [] => .error .indexError
  | s0 :: rest =>
    let structs' :=
      if s0.desc.take 24 = "OPEN_ENDING_MULTI_BRANCH" then rest
      else s0 :: rest
    let chars := structs'.foldl
      (fun (cs : List Char) s =>
        match s.ij with
        | [(i, j)] => (cs.set i '(').set j ')'
        | _ => cs)
      (List.replicate seq.length '.')
    .ok (String.mk chars)

theorem PyFloat.lt_irrefl (a : PyFloat) : a.lt a = false := by
  cases a <;> simp [PyFloat.lt]

theorem PyFloat.lt_trans {a b c : PyFloat} (h1 : a.lt b = true)
    (h2 : b.lt c = true) : a.lt c = true := by
  cases a <;> cases b <;> cases c <;> simp_all [PyFloat.lt] <;> linarith

theorem PyFloat.le_trans {a b c : PyFloat} (h1 : b.lt a = false)
    (h2 : c.lt b = false) : c.lt a = false := by
  cases a <;> cases b <;> cases c <;> simp_all [PyFloat.lt] <;> linarith

theorem minStep_cases (s t : Struct) : minStep s t = s ∨ minStep s t = t := by
  unfold minStep
  by_cases h : t.e ≠ PyFloat.negInf ∧ t.e.lt s.e
  · right
    simp [h]
  · left
    simp [h]

theorem minStep_le (s t : Struct) : s.e.lt (minStep s t).e = false := by
  unfold minStep
  by_cases h : t.e ≠ PyFloat.negInf ∧ t.e.lt s.e
  · simp only [h, if_pos]
    cases hse : s.e <;> cases hte : t.e <;>
      simp_all [PyFloat.lt] <;> linarith
  · simp [h, PyFloat.lt_irrefl]

theorem minStep_ne_negInf (s t : Struct) (hs : s.e ≠ PyFloat.negInf) :
    (minStep s t).e ≠ PyFloat.negInf := by
  unfold minStep
  by_cases h : t.e ≠ PyFloat.negInf ∧ t.e.lt s.e
  · rw [if_pos h]
    exact h.1
  · rw [if_neg h]
    exact hs

theorem foldl_minStep_mem : ∀ (l : List Struct) (acc : Struct),
    l.foldl minStep acc = acc ∨ l.foldl minStep acc ∈ l := by
  intro l
  induction l with
  | nil => intro acc; left; rfl
  | cons t rest ih =>
    intro acc
    rcases ih (minStep acc t) with h | h
    · rw [List.foldl_cons, h]
      rcases minStep_cases acc t with h2 | h2
      · left; exact h2
      · right; rw [h2]; exact List.mem_cons_self _ _
    · right
      rw [List.foldl_cons]
      exact List.mem_cons_of_mem _ h

theorem foldl_minStep_le_acc : ∀ (l : List Struct) (acc : Struct),
    acc.e.lt (l.foldl minStep acc).e = false := by
  intro l
  induction l with
  | nil => intro acc; exact PyFloat.lt_irrefl _
  | cons t rest ih =>
    intro acc
    rw [List.foldl_cons]
    exact PyFloat.le_trans (ih (minStep acc t)) (minStep_le acc t)

theorem foldl_minStep_min : ∀ (l : List Struct) (acc t : Struct),
    t ∈ l → t.e ≠ PyFloat.negInf →
    t.e.lt (l.foldl minStep acc).e = false := by
  intro l
  induction l with
  | nil => intro acc t h; exact absurd h (List.not_mem_nil _)
  | cons u rest ih =>
    intro acc t ht htne
    rw [List.foldl_cons]
    rcases List.mem_cons.mp ht with h | h
    · subst h
      have hstep : t.e.lt (minStep acc t).e = false := by
        unfold minStep
        by_cases hc : t.e ≠ PyFloat.negInf ∧ t.e.lt acc.e
        · simp [hc, PyFloat.lt_irrefl]
        · simp only [hc, if_neg, ite_false]
          push_neg at hc
          have := hc htne
          simpa using this
      exact PyFloat.le_trans (foldl_minStep_le_acc rest (minStep acc t)) hstep
    · exact ih (minStep acc u) t h htne

theorem foldl_minStep_ne_negInf : ∀ (l : List Struct) (acc : Struct),
    acc.e ≠ PyFloat.negInf → (l.foldl minStep acc).e ≠ PyFloat.negInf := by
  intro l
  induction l with
  | nil => intro acc h; exact h
  | cons t rest ih =>
    intro acc h
    rw [List.foldl_cons]
    exact ih _ (minStep_ne_negInf acc t h)

theorem foldl_minStep_null : ∀ (l : List Struct),
    (∀ s ∈ l, ¬ s.e.isFin) → l.foldl minStep STRUCT_NULL = STRUCT_NULL := by
  intro l h
  induction l with
  | nil => rfl
  | cons t rest ih =>
    rw [List.foldl_cons]
    have hstep : minStep STRUCT_NULL t = STRUCT_NULL := by
      have hne := h t (List.mem_cons_self _ _)
      unfold minStep
      cases hte : t.e with
      | negInf => simp
      | posInf => simp [STRUCT_NULL, PyFloat.lt]
      | fin q => rw [hte] at hne; exact absurd trivial hne
    rw [hstep]
    exact ih (fun s hs => h s (List.mem_cons_of_mem _ hs))

theorem foldl_minStep_mem_sub : ∀ (l : List Struct) (acc : Struct)
    (L : List Struct), acc ∈ L → (∀ x ∈ l, x ∈ L) →
    l.foldl minStep acc ∈ L := by
  intro l
  induction l with
  | nil => intro acc L hacc _; exact hacc
  | cons t rest ih =>
    intro acc L hacc hsub
    rw [List.foldl_cons]
    have hstep : minStep acc t ∈ L := by
      rcases minStep_cases acc t with h | h
      · rw [h]; exact hacc
      · rw [h]; exact hsub t (List.mem_cons_self _ _)
    exact ih (minStep acc t) L hstep (fun x hx => hsub x (List.mem_cons_of_mem _ hx))

theorem minStep_null_fin (t : Struct) (h : t.e.isFin) :
    minStep STRUCT_NULL t = t := by
  unfold minStep
  rw [if_pos]
  cases hte : t.e with
  | fin q =>
    constructor
    · exact fun hc => PyFloat.noConfusion hc
    · rfl
  | negInf => rw [hte] at h; exact absurd h (by simp [PyFloat.isFin])
  | posInf => rw [hte] at h; exact absurd h (by simp [PyFloat.isFin])

theorem foldl_minStep_mem_of_fin : ∀ (l : List Struct),
    (∃ s ∈ l, s.e.isFin) → l.foldl minStep STRUCT_NULL ∈ l := by
  intro l
  induction l with
  | nil =>
    rintro ⟨s, hs, -⟩
    exact absurd hs (List.not_mem_nil _)
  | cons t rest ih =>
    rintro ⟨s, hs, hfin⟩
    rw [List.foldl_cons]
    by_cases hTfin : t.e.isFin
    · rw [minStep_null_fin t hTfin]
      exact foldl_minStep_mem_sub rest t (t :: rest)
        (List.mem_cons_self _ _) (fun x hx => List.mem_cons_of_mem _ hx)
    · have hstep : minStep STRUCT_NULL t = STRUCT_NULL := by
        unfold minStep
        cases hte : t.e with
        | negInf => simp
        | posInf => simp [STRUCT_NULL, PyFloat.lt]
        | fin q => rw [hte] at hTfin; exact absurd trivial hTfin
      rw [hstep]
      have hsr : s ∈ rest := by
        rcases List.mem_cons.mp hs with h | h
        · subst h; exact absurd hfin hTfin
        · exact h
      exact List.mem_cons_of_mem _ (ih ⟨s, hsr, hfin⟩)

/-- A concrete energy model used to instantiate witnesses: Watson-Crick
complementarity, constant energies. -/
def extW : Ext :=
  ⟨fun c => if c = 'A' then 'T' else if c = 'T' then 'A'
    else if c = 'C' then 'G' else if c = 'G' then 'C' else '?',
   fun _ => false,
   fun _ i i1 j j1 =>
     toString i ++ "," ++ toString i1 ++ "/" ++ toString j ++ "," ++
       toString j1,
   fun _ _ _ _ => 3,
   fun _ _ _ _ _ _ => -1,
   fun _ _ _ _ _ _ => 2,
   fun _ _ _ _ _ _ => 2,
   fun _ _ _ _ _ _ => none⟩

/-- The empty `n × n` cache of `STRUCT_DEFAULT` sentinels. -/
def mkCache (n : Nat) : Cache :=
  List.replicate n (List.replicate n STRUCT_DEFAULT)

/-- C5: for every mode other than `dna` / `rna` the fill raises before
any DP work begins (the result does not depend on `S`, `D` or the
sequence) — but the error is a `TypeError`, not the `ValueError` the
claim names, because `raise(ValueError, msg)` raises the tuple itself
and Python 3 rejects non-exception raises with `TypeError`. -/
theorem C5_unsupported_mode (extDNA extRNA : Ext) (seq : String) (temp : ℚ)
    (S : Nat × Nat → List (Nat × Nat)) (D : List (Nat × List (Nat × Nat)))
    (lfix nBranches : Nat) (mode : String)
    (h1 : mode ≠ "dna") (h2 : mode ≠ "rna") :
    gm_cache extDNA extRNA seq temp S D lfix nBranches mode =
      .error .typeError ∧ PyErr.typeError ≠ PyErr.valueError := by
  constructor
  · unfold gm_cache
    rw [if_neg h1, if_neg h2]
  · intro h
    exact PyErr.noConfusion h

theorem C5_unsupported_mode_witness :
    ("xyz" ≠ "dna") ∧ ("xyz" ≠ "rna") ∧
    (gm_cache extW extW "AATT" 37 (fun _ => []) [] 0 4 "xyz" =
      .error .typeError ∧ PyErr.typeError ≠ PyErr.valueError) :=
  ⟨by decide, by decide,
   C5_unsupported_mode extW extW "AATT" 37 (fun _ => []) [] 0 4 "xyz"
     (by decide) (by decide)⟩

/-- C2: on degenerate input the fold does NOT return an empty feature
list: with an all-sentinel cache `min_struct` stays `None`, and
`min_struct[0]` raises `TypeError`; on the empty sequence `e_cache[0]`
raises `IndexError` first; and the dot-bracket encoder applied to an
empty feature list raises `IndexError` on `structs[0]`. -/
theorem C2_degenerate_input_crashes :
    gmfoldM extW extW (fun _ _ => none) 100 "AAA" 37 0 4 "dna"
        (fun _ => []) [] [] = .error .typeError
    ∧ gmfoldM extW extW (fun _ _ => none) 100 "" 37 0 4 "dna"
        (fun _ => []) [] [] = .error .indexError
    ∧ gm_dot_bracket "AAA" [] = .error .indexError :=
  ⟨rfl, rfl, rfl⟩

/-- C10: `_e` does NOT return an unpackable pair on every path: the
isolated-pair-penalty path and the memoization-hit path return a bare
`Struct`, which the fill loop's two-name unpacking rejects with
`TypeError`. -/
theorem C10_e_returns_bare_struct_on_early_paths :
    (e_fn extW "AAAAA".toList 1 3 310 (mkCache 5) (fun _ => []) [] 4).1 =
      ERes.single ⟨.fin 5000, "", []⟩
    ∧ unpackE (ERes.single ⟨.fin 5000, "", []⟩) = .error .typeError
    ∧ (e_fn extW "AAAAA".toList 1 3 310
        (setS (mkCache 5) 1 3 ⟨.fin 5000, "", []⟩) (fun _ => []) [] 4).1 =
      ERes.single ⟨.fin 5000, "", []⟩ :=
  ⟨rfl, rfl, rfl⟩

/-- C7: a non-boundary pair with no stacking support on either side is
assigned the fixed `Struct(5000)` penalty, written to the cache, and the
hairpin / stack-bulge-interior / multi-branch computations are skipped
(the call returns at once with the penalty struct). -/
theorem C7_isolated_pair_penalty (ext : Ext) (seq : List Char) (i j : Nat)
    (temp : ℚ) (cache : Cache) (S : Nat × Nat → List (Nat × Nat))
    (nb : List (Nat × Nat)) (nBranches : Nat)
    (hunfilled : getS cache i j = STRUCT_DEFAULT)
    (hi : i ≠ 0) (hj : j < seq.length - 1)
    (houter : ext.complement (seq.getD (i - 1) ' ') ≠ seq.getD (j + 1) ' ')
    (hinner : ext.complement (seq.getD (i + 1) ' ') ≠ seq.getD (j - 1) ' ') :
    e_fn ext seq i j temp cache S nb nBranches =
      (.single ⟨.fin 5000, "", []⟩, setS cache i j ⟨.fin 5000, "", []⟩) := by
  have ho : isolatedOuterB ext seq i j = true := by
    unfold isolatedOuterB
    rw [if_pos ⟨hi, hj⟩]
    exact decide_eq_true houter
  have hin : isolatedInnerB ext seq i j = true := by
    unfold isolatedInnerB
    exact decide_eq_true hinner
  unfold e_fn
  rw [if_neg (fun hne => hne hunfilled)]
  rw [if_pos (show (isolatedOuterB ext seq i j
    && isolatedInnerB ext seq i j) = true by rw [ho, hin]; rfl)]

theorem C7_isolated_pair_penalty_witness :
    getS (mkCache 5) 1 3 = STRUCT_DEFAULT
    ∧ (1 ≠ 0) ∧ 3 < "AAAAA".toList.length - 1
    ∧ extW.complement ("AAAAA".toList.getD 0 ' ') ≠ "AAAAA".toList.getD 4 ' '
    ∧ extW.complement ("AAAAA".toList.getD 2 ' ') ≠ "AAAAA".toList.getD 2 ' '
    ∧ e_fn extW "AAAAA".toList 1 3 310 (mkCache 5) (fun _ => []) [] 4 =
      (.single ⟨.fin 5000, "", []⟩,
       setS (mkCache 5) 1 3 ⟨.fin 5000, "", []⟩) :=
  ⟨rfl, by decide, by decide, by decide, by decide,
   C7_isolated_pair_penalty extW "AAAAA".toList 1 3 310 (mkCache 5)
     (fun _ => []) [] 4 rfl (by decide) (by decide) (by decide) (by decide)⟩

/-- C6 counterexample: with a single argument of energy `+inf` but a
non-empty label, `_min_struct` returns `STRUCT_NULL`, which is not among
its arguments — yet not every argument has energy `-inf`, so the claim
requires a result from among the arguments. -/
theorem C6_min_struct_counterexample :
    min_struct [⟨.posInf, "X", []⟩] = STRUCT_NULL
    ∧ STRUCT_NULL ∉ ([⟨.posInf, "X", []⟩] : List Struct)
    ∧ (⟨.posInf, "X", []⟩ : Struct).e ≠ PyFloat.negInf := by
  refine ⟨rfl, by decide, by decide⟩

/-- C6 (amended): `_min_struct` never returns a struct of energy `-inf`;
if no argument has finite energy it returns `STRUCT_NULL`; and when some
argument has finite energy it returns one of its arguments, minimal
among those whose energy is not `-inf`. -/
theorem C6_min_struct_amended (l : List Struct) :
    (min_struct l).e ≠ PyFloat.negInf
    ∧ ((∀ s ∈ l, ¬ s.e.isFin) → min_struct l = STRUCT_NULL)
    ∧ ((∃ s ∈ l, s.e.isFin) →
        min_struct l ∈ l ∧
        ∀ t ∈ l, t.e ≠ PyFloat.negInf →
          t.e.lt (min_struct l).e = false) := by
  refine ⟨?_, ?_, ?_⟩
  · exact foldl_minStep_ne_negInf l STRUCT_NULL
      (fun h => PyFloat.noConfusion h)
  · exact foldl_minStep_null l
  · intro hex
    exact ⟨foldl_minStep_mem_of_fin l hex,
      fun t ht htne => foldl_minStep_min l STRUCT_NULL t ht htne⟩

theorem C6_min_struct_amended_witness :
    (∃ s ∈ ([⟨.fin 1, "a", []⟩, ⟨.negInf, "b", []⟩] : List Struct),
      s.e.isFin)
    ∧ min_struct [⟨.fin 1, "a", []⟩, ⟨.negInf, "b", []⟩] ∈
        ([⟨.fin 1, "a", []⟩, ⟨.negInf, "b", []⟩] : List Struct) :=
  ⟨⟨⟨.fin 1, "a", []⟩, by decide, trivial⟩,
   ((C6_min_struct_amended [⟨.fin 1, "a", []⟩, ⟨.negInf, "b", []⟩]).2.2
     ⟨⟨.fin 1, "a", []⟩, by decide, trivial⟩).1⟩

theorem mem_of_getElem?_eq {α : Type} (l : List α) (n : Nat) (a : α)
    (h : getElem? l n = some a) : a ∈ l := by
  have hn : n < l.length := by
    by_contra hge
    rw [List.getElem?_eq_none (Nat.le_of_not_lt hge)] at h
    exact Option.noConfusion h
  rw [List.getElem?_eq_getElem hn] at h
  rw [← Option.some.inj h]
  exact List.getElem_mem hn

theorem getS_setS_self (c : Cache) (i j : Nat) (v : Struct)
    (hi : i < c.length) (hj : j < c.length)
    (hrow : ∀ row ∈ c, row.length = c.length) :
    getS (setS c i j v) i j = v := by
  apply getS_setS_eq c i j v hi
  intro row hr
  rw [hrow row (mem_of_getElem?_eq c i row hr)]
  exact hj

/-- A feature label of the hairpin class. -/
def hairpinLabel (d : String) : Prop := ∃ r, d = "HAIRPIN:" ++ r

/-- A feature label of the stack / bulge / interior-loop (single-link)
class, as produced by the `E2` classification and the fixed-stem
force-write. -/
def linkLabel (d : String) : Prop :=
  (∃ r, d = "STACK:" ++ r) ∨ (∃ r, d = "STACK_DE:" ++ r)
  ∨ (∃ r, d = "BULGE:" ++ r) ∨ (∃ r, d = "INTERIOR_LOOP:" ++ r)

/-- A feature label of the multi-branch class (spec-modelled
`gm_multi_branch` output label). -/
def multiLabel (d : String) : Prop := ∃ r, d = "BIFURCATION:" ++ r

/-- The child-count classification invariant, with the empty label
standing for the two sentinels and the isolated-pair penalty. -/
def classOK (s : Struct) : Prop :=
  (s.ij.length = 0 → hairpinLabel s.desc ∨ s.desc = "")
  ∧ (s.ij.length = 1 → linkLabel s.desc)
  ∧ (2 ≤ s.ij.length → multiLabel s.desc)

theorem classOK_null : classOK STRUCT_NULL :=
  ⟨fun _ => Or.inr rfl, fun h => absurd h (by decide),
   fun h => absurd h (by decide)⟩

theorem classOK_e1 (ext : Ext) (seq : List Char) (i j : Nat) (temp : ℚ) :
    classOK (e1Of ext seq i j temp) :=
  ⟨fun _ => Or.inl ⟨_, rfl⟩, fun h => by simp [e1Of] at h,
   fun h => by simp [e1Of] at h⟩

theorem e2_choice_link (ext : Ext) (seq : List Char) (n i j : Nat)
    (temp : ℚ) (bp : Nat × Nat) (en : ℚ) (ty : String)
    (h : e2_choice ext seq n i j temp bp = some (en, ty)) : linkLabel ty := by
  unfold e2_choice at h
  split at h
  · split at h
    · rename_i hde
      injection h with h'
      injection h' with h1 h2
      exact Or.inr (Or.inl ⟨_, h2.symm⟩)
    · injection h with h'
      injection h' with h1 h2
      exact Or.inl ⟨_, h2.symm⟩
  · split at h
    · split at h
      · injection h with h'
        injection h' with h1 h2
        exact Or.inl ⟨_, h2.symm⟩
      · injection h with h'
        injection h' with h1 h2
        exact Or.inr (Or.inr (Or.inr ⟨_, h2.symm⟩))
    · split at h
      · injection h with h'
        injection h' with h1 h2
        exact Or.inr (Or.inr (Or.inl ⟨_, h2.symm⟩))
      · split at h
        · injection h with h'
          injection h' with h1 h2
          exact Or.inr (Or.inr (Or.inl ⟨_, h2.symm⟩))
        · exact Option.noConfusion h

/-- Form invariant of the `E2` fold: the accumulator is either the
initial `Struct(inf)` or a single-child struct with a link label. -/
def e2Form (s : Struct) : Prop :=
  s = ⟨.posInf, "", []⟩ ∨ (s.ij.length = 1 ∧ linkLabel s.desc)

theorem e2_step_form (ext : Ext) (seq : List Char) (n i j : Nat) (temp : ℚ)
    (cache : Cache) (acc : Struct) (bp : Nat × Nat) (hacc : e2Form acc) :
    e2Form (e2_step ext seq n i j temp cache acc bp) := by
  unfold e2_step
  split
  · exact hacc
  · cases hch : e2_choice ext seq n i j temp bp with
    | none => exact hacc
    | some p =>
      cases p with
      | mk en ty =>
        dsimp only
        split
        · exact Or.inr ⟨rfl, e2_choice_link ext seq n i j temp bp en ty hch⟩
        · exact hacc

theorem e2Of_form (ext : Ext) (seq : List Char) (i j : Nat) (temp : ℚ)
    (cache : Cache) (S : Nat × Nat → List (Nat × Nat)) :
    e2Form (e2Of ext seq i j temp cache S) := by
  unfold e2Of
  generalize (S (i, j)) = l
  induction l using List.reverseRecOn with
  | nil => exact Or.inl rfl
  | append_singleton l bp ih =>
    rw [List.foldl_append]
    exact e2_step_form ext seq seq.length i j temp cache _ bp ih

theorem all_combinations_mem (l : List (Nat × Nat)) (r1 r2 : Nat)
    (c : List (Nat × Nat)) (hc : c ∈ all_combinations l r1 r2) :
    r1 ≤ c.length ∧ c.length ≤ r2 := by
  unfold all_combinations at hc
  have h2 := (List.mem_filter.mp hc).2
  simp only [Bool.and_eq_true, decide_eq_true_eq] at h2
  exact ⟨h2.1.1, h2.1.2⟩

/-- Form invariant of the multi-branch fold: the accumulator is either
`STRUCT_NULL` or a struct with `≥ 2` children and a multi-branch label. -/
def e3Form (s : Struct) : Prop :=
  s = STRUCT_NULL ∨ (2 ≤ s.ij.length ∧ multiLabel s.desc ∧ s.e.isFin)

theorem mbStep_form (ext : Ext) (seq : List Char) (i j : Nat) (temp : ℚ)
    (cache : Cache) (acc : Struct) (combo : List (Nat × Nat))
    (hlen : 2 ≤ combo.length) (hacc : e3Form acc) :
    e3Form (mbStep ext seq i j temp cache acc combo) := by
  unfold mbStep gm_multi_branch
  cases hmb : ext.mbE seq i j temp cache combo with
  | none => exact hacc
  | some q =>
    dsimp only [Option.map]
    split
    · exact Or.inr ⟨hlen, ⟨_, rfl⟩, trivial⟩
    · exact hacc

theorem e3Of_form (ext : Ext) (seq : List Char) (i j : Nat) (temp : ℚ)
    (cache : Cache) (S : Nat × Nat → List (Nat × Nat))
    (nb : List (Nat × Nat)) (nBranches : Nat) :
    e3Form (e3Of ext seq i j temp cache S nb nBranches) := by
  unfold e3Of
  split
  · split
    · have : ∀ (combos : List (List (Nat × Nat))),
          (∀ c ∈ combos, 2 ≤ c.length) → ∀ (acc : Struct), e3Form acc →
          e3Form (combos.foldl (mbStep ext seq i j temp cache) acc) := by
        intro combos
        induction combos with
        | nil => intro _ acc hacc; exact hacc
        | cons c rest ih =>
          intro hall acc hacc
          rw [List.foldl_cons]
          exact ih (fun x hx => hall x (List.mem_cons_of_mem _ hx)) _
            (mbStep_form ext seq i j temp cache acc c
              (hall c (List.mem_cons_self _ _)) hacc)
      exact this _ (fun c hc => (all_combinations_mem _ 2 nBranches c hc).1)
        STRUCT_NULL (Or.inl rfl)
    · exact Or.inl rfl
  · exact Or.inl rfl

theorem classOK_of_e2Form (s : Struct) (h : e2Form s) : classOK s := by
  rcases h with h | ⟨h1, hl⟩
  · subst h
    exact ⟨fun _ => Or.inr rfl, fun h => by simp at h, fun h => by simp at h⟩
  · exact ⟨fun h => absurd (h1.symm.trans h) (by decide),
      fun _ => hl, fun h => by omega⟩

theorem classOK_of_e3Form (s : Struct) (h : e3Form s) : classOK s := by
  rcases h with h | ⟨h2, hm, -⟩
  · subst h
    exact classOK_null
  · exact ⟨fun h => by omega, fun h => by omega, fun _ => hm⟩

theorem min_struct_spec (l : List Struct) :
    min_struct l = STRUCT_NULL ∨ min_struct l ∈ l :=
  foldl_minStep_mem l STRUCT_NULL

theorem min_struct_min (l : List Struct) (t : Struct) (ht : t ∈ l)
    (htne : t.e ≠ PyFloat.negInf) : t.e.lt (min_struct l).e = false :=
  foldl_minStep_min l STRUCT_NULL t ht htne

theorem nbAdd_self_mem (nb : List (Nat × Nat)) (p : Nat × Nat) :
    p ∈ nbAdd nb p := by
  unfold nbAdd
  by_cases h : p ∈ nb
  · rw [if_pos h]
    exact h
  · rw [if_neg h]
    exact List.mem_append_right _ (List.mem_singleton.mpr rfl)

/-- C9 counterexample: the isolated-pair penalty path writes
`Struct(5000)` to the cache — a struct with zero child references whose
label is not a hairpin label, refuting "0 children ⇒ labeled a
hairpin". -/
theorem C9_zero_children_counterexample :
    (getS (e_fn extW "AAAAA".toList 1 3 310 (mkCache 5)
      (fun _ => []) [] 4).2 1 3).ij.length = 0
    ∧ ¬ hairpinLabel
        (getS (e_fn extW "AAAAA".toList 1 3 310 (mkCache 5)
          (fun _ => []) [] 4).2 1 3).desc := by
  constructor
  · rfl
  · rintro ⟨r, hr⟩
    have hdesc : (getS (e_fn extW "AAAAA".toList 1 3 310 (mkCache 5)
        (fun _ => []) [] 4).2 1 3).desc = "" := rfl
    rw [hdesc] at hr
    have hlen := congrArg String.length hr
    rw [String.length_append] at hlen
    have h8 : ("HAIRPIN:" : String).length = 8 := rfl
    have h0 : ("" : String).length = 0 := rfl
    rw [h8, h0] at hlen
    omega

/-- C9 (amended): every struct the per-pair resolver writes to the
cache respects the children-count classification, with the terminal
class widened to include the empty-labelled sentinels and the
isolated-pair penalty: 0 children ⇒ hairpin label or empty label
(terminal); 1 child ⇒ stack / bulge / interior-loop label;
≥ 2 children ⇒ multi-branch label. -/
theorem C9_children_classification_amended (ext : Ext) (seq : List Char)
    (i j : Nat) (temp : ℚ) (cache : Cache)
    (S : Nat × Nat → List (Nat × Nat)) (nb : List (Nat × Nat))
    (nBranches : Nat) (hi : i < cache.length) (hj : j < cache.length)
    (hrow : ∀ row ∈ cache, row.length = cache.length) :
    (e_fn ext seq i j temp cache S nb nBranches).2 = cache
    ∨ classOK (getS (e_fn ext seq i j temp cache S nb nBranches).2 i j) := by
  unfold e_fn
  by_cases h0 : getS cache i j ≠ STRUCT_DEFAULT
  · rw [if_pos h0]
    left
    rfl
  · rw [if_neg h0]
    by_cases hiso :
        (isolatedOuterB ext seq i j && isolatedInnerB ext seq i j) = true
    · rw [if_pos hiso]
      right
      show classOK (getS (setS cache i j ⟨.fin 5000, "", []⟩) i j)
      rw [getS_setS_self cache i j _ hi hj hrow]
      exact ⟨fun _ => Or.inr rfl, fun h => by simp at h, fun h => by simp at h⟩
    · rw [if_neg hiso]
      by_cases h4 : j - i = 4
      · rw [if_pos h4]
        right
        show classOK (getS (setS cache i j (e1Of ext seq i j temp)) i j)
        rw [getS_setS_self cache i j _ hi hj hrow]
        exact classOK_e1 ext seq i j temp
      · rw [if_neg h4]
        right
        show classOK (getS (setS cache i j
          (min_struct [e1Of ext seq i j temp, e2Of ext seq i j temp cache S,
            e3Of ext seq i j temp cache S nb nBranches])) i j)
        rw [getS_setS_self cache i j _ hi hj hrow]
        rcases min_struct_spec [e1Of ext seq i j temp,
          e2Of ext seq i j temp cache S,
          e3Of ext seq i j temp cache S nb nBranches] with hm | hm
        · rw [hm]
          exact classOK_null
        · simp only [List.mem_cons, List.mem_singleton] at hm
          rcases hm with hm | hm | hm | hm
          · rw [hm]
            exact classOK_e1 ext seq i j temp
          · rw [hm]
            exact classOK_of_e2Form _ (e2Of_form ext seq i j temp cache S)
          · rw [hm]
            exact classOK_of_e3Form _
              (e3Of_form ext seq i j temp cache S nb nBranches)
          · exact absurd hm (List.not_mem_nil _)

theorem C9_children_classification_amended_witness :
    1 < (mkCache 5).length ∧ 3 < (mkCache 5).length
    ∧ (∀ row ∈ mkCache 5, row.length = (mkCache 5).length)
    ∧ ((e_fn extW "AATT".toList 1 3 310 (mkCache 5)
        (fun _ => []) [] 4).2 = mkCache 5
      ∨ classOK (getS (e_fn extW "AATT".toList 1 3 310 (mkCache 5)
        (fun _ => []) [] 4).2 1 3)) :=
  ⟨by decide, by decide, by decide,
   C9_children_classification_amended extW "AATT".toList 1 3 310 (mkCache 5)
     (fun _ => []) [] 4 (by decide) (by decide) (by decide)⟩

/-- The struct component of `_e`'s return value. -/
def ERes.struct : ERes → Struct
  | .single s => s
  | .tuple s _ => s

/-- The `non_branches` component of `_e`'s return value (empty for the
bare-struct returns, which carry no set). -/
def ERes.nbs : ERes → List (Nat × Nat)
  | .single _ => []
  | .tuple _ nb => nb

/-- C8: after a generic-path resolution of `(i, j)` (cell unfilled, not
isolated, not the small-hairpin shortcut), `(i, j)` is in the returned
`non_branches` set iff the chosen struct is terminal (0 children), a
multi-branch (≥ 2 children), or has strictly positive energy; a
single-child stack / bulge / interior-loop result with non-positive
energy is never added. -/
theorem C8_non_branches_iff (ext : Ext) (seq : List Char) (i j : Nat)
    (temp : ℚ) (cache : Cache) (S : Nat × Nat → List (Nat × Nat))
    (nb : List (Nat × Nat)) (nBranches : Nat)
    (hunfilled : getS cache i j = STRUCT_DEFAULT)
    (hiso : (isolatedOuterB ext seq i j && isolatedInnerB ext seq i j) = false)
    (h4 : j - i ≠ 4) (hnotin : (i, j) ∉ nb) :
    ((i, j) ∈ (e_fn ext seq i j temp cache S nb nBranches).1.nbs ↔
      ((e_fn ext seq i j temp cache S nb nBranches).1.struct.ij.length = 0
       ∨ 2 ≤ (e_fn ext seq i j temp cache S nb nBranches).1.struct.ij.length
       ∨ PyFloat.lt (.fin 0)
           (e_fn ext seq i j temp cache S nb nBranches).1.struct.e = true)) := by
  unfold e_fn
  rw [if_neg (fun hne => hne hunfilled)]
  rw [if_neg (show ¬ ((isolatedOuterB ext seq i j
    && isolatedInnerB ext seq i j) = true) by simp [hiso])]
  rw [if_neg h4]
  dsimp only [ERes.nbs, ERes.struct]
  constructor
  · intro hmem
    by_cases hc : PyFloat.lt (.fin 0)
          (min_struct [e1Of ext seq i j temp, e2Of ext seq i j temp cache S,
            e3Of ext seq i j temp cache S nb nBranches]).e = true
        ∨ min_struct [e1Of ext seq i j temp, e2Of ext seq i j temp cache S,
            e3Of ext seq i j temp cache S nb nBranches] =
          e3Of ext seq i j temp cache S nb nBranches
        ∨ min_struct [e1Of ext seq i j temp, e2Of ext seq i j temp cache S,
            e3Of ext seq i j temp cache S nb nBranches] =
          e1Of ext seq i j temp
    · rcases hc with hpos | he3 | he1
      · right
        right
        exact hpos
      · rcases e3Of_form ext seq i j temp cache S nb nBranches with h3 | h3
        · left
          rw [he3, h3]
          rfl
        · right
          left
          rw [he3]
          exact h3.1
      · left
        rw [he1]
        rfl
    · rw [if_neg hc] at hmem
      exact absurd hmem hnotin
  · intro hRHS
    have hcond : PyFloat.lt (.fin 0)
          (min_struct [e1Of ext seq i j temp, e2Of ext seq i j temp cache S,
            e3Of ext seq i j temp cache S nb nBranches]).e = true
        ∨ min_struct [e1Of ext seq i j temp, e2Of ext seq i j temp cache S,
            e3Of ext seq i j temp cache S nb nBranches] =
          e3Of ext seq i j temp cache S nb nBranches
        ∨ min_struct [e1Of ext seq i j temp, e2Of ext seq i j temp cache S,
            e3Of ext seq i j temp cache S nb nBranches] =
          e1Of ext seq i j temp := by
      have hnull_e3 : min_struct [e1Of ext seq i j temp,
          e2Of ext seq i j temp cache S,
          e3Of ext seq i j temp cache S nb nBranches] = STRUCT_NULL →
          e3Of ext seq i j temp cache S nb nBranches = STRUCT_NULL := by
        intro hMnull
        rcases e3Of_form ext seq i j temp cache S nb nBranches with h3 | h3
        · exact h3
        · exfalso
          cases hfin : (e3Of ext seq i j temp cache S nb nBranches).e with
          | fin q =>
            have hmin := min_struct_min [e1Of ext seq i j temp,
              e2Of ext seq i j temp cache S,
              e3Of ext seq i j temp cache S nb nBranches]
              (e3Of ext seq i j temp cache S nb nBranches)
              (by simp) (by rw [hfin]; exact fun hx => PyFloat.noConfusion hx)
            rw [hMnull, hfin] at hmin
            exact Bool.noConfusion hmin
          | negInf =>
            rw [hfin] at h3
            exact h3.2.2
          | posInf =>
            rw [hfin] at h3
            exact h3.2.2
      rcases hRHS with hl0 | hl2 | hpos
      · rcases min_struct_spec [e1Of ext seq i j temp,
          e2Of ext seq i j temp cache S,
          e3Of ext seq i j temp cache S nb nBranches] with hm | hm
        · right
          left
          rw [hm, hnull_e3 hm]
        · simp only [List.mem_cons, List.mem_singleton] at hm
          rcases hm with hm | hm | hm | hm
          · right
            right
            exact hm
          · rcases e2Of_form ext seq i j temp cache S with h2 | h2
            · right
              left
              rw [hm, h2]
              have : (⟨.posInf, "", []⟩ : Struct) = STRUCT_NULL := rfl
              rw [this]
              exact (hnull_e3 (by rw [hm, h2]; rfl)).symm
            · exfalso
              rw [hm] at hl0
              rw [h2.1] at hl0
              exact absurd hl0 (by decide)
          · right
            left
            exact hm
          · exact absurd hm (List.not_mem_nil _)
      · rcases min_struct_spec [e1Of ext seq i j temp,
          e2Of ext seq i j temp cache S,
          e3Of ext seq i j temp cache S nb nBranches] with hm | hm
        · exfalso
          rw [hm] at hl2
          exact absurd hl2 (by decide)
        · simp only [List.mem_cons, List.mem_singleton] at hm
          rcases hm with hm | hm | hm | hm
          · exfalso
            rw [hm] at hl2
            have : (e1Of ext seq i j temp).ij.length = 0 := rfl
            omega
          · exfalso
            rcases e2Of_form ext seq i j temp cache S with h2 | h2
            · rw [hm, h2] at hl2
              exact absurd hl2 (by decide)
            · rw [hm, h2.1] at hl2
              omega
          · right
            left
            exact hm
          · exact absurd hm (List.not_mem_nil _)
      · left
        exact hpos
    rw [if_pos hcond]
    exact nbAdd_self_mem nb (i, j)

theorem C8_non_branches_iff_witness :
    getS (mkCache 4) 0 3 = STRUCT_DEFAULT
    ∧ (isolatedOuterB extW "AATT".toList 0 3
        && isolatedInnerB extW "AATT".toList 0 3) = false
    ∧ ((3 : Nat) - 0 ≠ 4) ∧ ((0, 3) ∉ ([] : List (Nat × Nat)))
    ∧ ((0, 3) ∈ (e_fn extW "AATT".toList 0 3 310 (mkCache 4)
        (fun _ => []) [] 4).1.nbs ↔
      ((e_fn extW "AATT".toList 0 3 310 (mkCache 4)
          (fun _ => []) [] 4).1.struct.ij.length = 0
       ∨ 2 ≤ (e_fn extW "AATT".toList 0 3 310 (mkCache 4)
          (fun _ => []) [] 4).1.struct.ij.length
       ∨ PyFloat.lt (.fin 0) (e_fn extW "AATT".toList 0 3 310 (mkCache 4)
          (fun _ => []) [] 4).1.struct.e = true)) :=
  ⟨rfl, by decide, by decide, by decide,
   C8_non_branches_iff extW "AATT".toList 0 3 310 (mkCache 4)
     (fun _ => []) [] 4 rfl (by decide) (by decide) (by decide)⟩

theorem setS_length (c : Cache) (i j : Nat) (v : Struct) :
    (setS c i j v).length = c.length := by
  unfold setS
  cases getElem? c i with
  | none => rfl
  | some row => exact List.length_set c i _

theorem setS_rows (c : Cache) (i j : Nat) (v : Struct) (n : Nat)
    (h : ∀ row ∈ c, row.length = n) :
    ∀ row ∈ setS c i j v, row.length = n := by
  unfold setS
  cases hg : getElem? c i with
  | none => exact h
  | some row =>
    intro row' hrow'
    rcases List.mem_or_eq_of_mem_set hrow' with hmem | heq
    · exact h row' hmem
    · rw [heq, List.length_set]
      exact h row (mem_of_getElem?_eq c i row hg)

/-- Invariant of the exterior combination fold: the cache differs from
the input cache at most in cell `(0, n-1)`, and if the best-root
register moved then it moved to `(0, n-1)` and the current cell value is
strictly below the input best cell's energy. -/
def extInv (cache : Cache) (minS : Option (Nat × Nat)) (n : Nat) :
    Except PyErr (Cache × Option (Nat × Nat)) → Prop
  | .error _ => True
  | .ok st =>
    st.1.length = n ∧ (∀ row ∈ st.1, row.length = n)
    ∧ (∀ a b, (a, b) ≠ (0, n - 1) → getS st.1 a b = getS cache a b)
    ∧ ((st.1 = cache ∧ st.2 = minS)
       ∨ (∃ m, minS = some m ∧ st.2 = some (0, n - 1)
          ∧ (getS st.1 0 (n - 1)).e.lt (getS cache m.1 m.2).e = true))

theorem exteriorStep_inv (oe : Cache → List (Nat × Nat) → Option ℚ)
    (cache : Cache) (minS : Option (Nat × Nat)) (n : Nat)
    (acc : Except PyErr (Cache × Option (Nat × Nat)))
    (combo : List (Nat × Nat)) (hn0 : 0 < n)
    (hinv : extInv cache minS n acc) :
    extInv cache minS n (exteriorStep oe n acc combo) := by
  unfold exteriorStep
  cases acc with
  | error err => trivial
  | ok st =>
    obtain ⟨c', mS'⟩ := st
    obtain ⟨hlen, hrows, hframe, hcase⟩ := hinv
    dsimp only at hlen hrows hframe hcase ⊢
    cases hob : open_ending_branch oe c' combo with
    | none => exact ⟨hlen, hrows, hframe, hcase⟩
    | some s =>
      cases mS' with
      | none => trivial
      | some m' =>
        dsimp only
        by_cases hlt : s.e.lt (getS c' m'.1 m'.2).e = true
        · rw [if_pos hlt]
          have hcell : getS (setS c' 0 (n - 1) s) 0 (n - 1) = s := by
            apply getS_setS_self c' 0 (n - 1) s
            · omega
            · omega
            · intro row hr
              rw [hrows row hr]
              omega
          refine ⟨by rw [setS_length]; exact hlen,
            setS_rows c' 0 (n - 1) s n hrows, ?_, ?_⟩
          · intro a b hab
            rw [getS_setS_ne _ _ _ _ _ _ hab]
            exact hframe a b hab
          · right
            rcases hcase with ⟨hc, hm⟩ | ⟨m, hminS, hm', hlt0⟩
            · refine ⟨m', hm.symm, rfl, ?_⟩
              rw [hcell]
              rw [hc] at hlt
              exact hlt
            · have hm'eq : m' = (0, n - 1) := Option.some.inj hm'
              refine ⟨m, hminS, rfl, ?_⟩
              rw [hcell]
              rw [hm'eq] at hlt
              exact PyFloat.lt_trans hlt hlt0
        · rw [if_neg hlt]
          exact ⟨hlen, hrows, hframe, hcase⟩

theorem exteriorFold_inv (oe : Cache → List (Nat × Nat) → Option ℚ)
    (cache : Cache) (minS : Option (Nat × Nat)) (n : Nat) (hn0 : 0 < n) :
    ∀ (combos : List (List (Nat × Nat)))
      (acc : Except PyErr (Cache × Option (Nat × Nat))),
    extInv cache minS n acc →
    extInv cache minS n (combos.foldl (exteriorStep oe n) acc) := by
  intro combos
  induction combos with
  | nil => intro acc h; exact h
  | cons c rest ih =>
    intro acc h
    rw [List.foldl_cons]
    exact ih _ (exteriorStep_inv oe cache minS n acc c hn0 h)

/-- C4: the exterior multi-branch resolver leaves the cache untouched
whenever a fixed stem is requested; on success it changes at most the
whole-sequence cell `(0, n-1)`; and when that cell did change, the new
value's energy is strictly below the energy of the cell of the best
pair found by the fill (each individual overwrite is guarded by a
strict comparison against the then-current best cell). -/
theorem C4_exterior_resolver (oe : Cache → List (Nat × Nat) → Option ℚ)
    (cache : Cache) (minS : Option (Nat × Nat)) (minE : PyFloat)
    (bps : List (Nat × Nat)) (nBranches lfix n : Nat)
    (hn : cache.length = n) (hn0 : 0 < n)
    (hrow : ∀ row ∈ cache, row.length = n) :
    (lfix ≠ 0 →
      exteriorResolve oe cache minS minE bps nBranches lfix n =
        .ok (cache, minS))
    ∧ (∀ c' mS',
        exteriorResolve oe cache minS minE bps nBranches lfix n =
          .ok (c', mS') →
        (∀ a b, (a, b) ≠ (0, n - 1) → getS c' a b = getS cache a b)
        ∧ (getS c' 0 (n - 1) ≠ getS cache 0 (n - 1) →
            ∃ m, minS = some m
              ∧ (getS c' 0 (n - 1)).e.lt (getS cache m.1 m.2).e = true)) := by
  have h0' : 0 < cache.length := by omega
  have hrl : cache[0].length = n := hrow _ (List.getElem_mem h0')
  have hn1 : n - 1 < cache[0].length := by omega
  have hc00 : (getElem? cache 0).bind (fun row => getElem? row (n - 1)) =
      some cache[0][n - 1] := by
    rw [List.getElem?_eq_getElem h0']
    exact List.getElem?_eq_getElem hn1
  constructor
  · intro hl
    have hcnd : ¬ (((minE.lt cache[0][n - 1].e
        || decide (cache[0][n - 1] = STRUCT_DEFAULT))
        && decide (lfix = 0)) = true) := by
      simp only [Bool.and_eq_true, decide_eq_true_eq]
      intro hcontra
      exact hl hcontra.2
    unfold exteriorResolve
    rw [hc00]
    dsimp only
    rw [if_neg hcnd]
  · intro c' mS' hok
    unfold exteriorResolve at hok
    rw [hc00] at hok
    dsimp only at hok
    by_cases hcond : ((minE.lt cache[0][n - 1].e
        || decide (cache[0][n - 1] = STRUCT_DEFAULT))
        && decide (lfix = 0)) = true
    · rw [if_pos hcond] at hok
      have hinv := exteriorFold_inv oe cache minS n hn0
        (all_combinations ((bps.dedup).filter
          (fun bp => (getS cache bp.1 bp.2).e.lt (.fin 0))) 1 nBranches)
        (.ok (cache, minS))
        ⟨hn, hrow, fun _ _ _ => rfl, Or.inl ⟨rfl, rfl⟩⟩
      rw [hok] at hinv
      obtain ⟨-, -, hframe, hcase⟩ := hinv
      dsimp only at hframe hcase
      refine ⟨hframe, ?_⟩
      intro hchanged
      rcases hcase with ⟨hc, -⟩ | ⟨m, hminS, -, hlt⟩
      · exact absurd (by rw [hc]) hchanged
      · exact ⟨m, hminS, hlt⟩
    · rw [if_neg hcond] at hok
      obtain ⟨h1, h2⟩ : cache = c' ∧ minS = mS' := by
        have := Except.ok.inj hok
        exact ⟨congrArg Prod.fst this, congrArg Prod.snd this⟩
      subst h1
      exact ⟨fun _ _ _ => rfl, fun hch => absurd rfl hch⟩

theorem C4_exterior_resolver_witness :
    (mkCache 2).length = 2 ∧ (0 : Nat) < 2
    ∧ (∀ row ∈ mkCache 2, row.length = 2)
    ∧ ((1 : Nat) ≠ 0 →
        exteriorResolve (fun _ _ => none) (mkCache 2) (some (0, 1))
          PyFloat.posInf [] 4 1 2 = .ok (mkCache 2, some (0, 1))) :=
  ⟨by decide, by decide, by decide,
   (C4_exterior_resolver (fun _ _ => none) (mkCache 2) (some (0, 1))
     PyFloat.posInf [] 4 1 2 (by decide) (by decide) (by decide)).1⟩

/-- Sum of the (finite) energies of a feature list. -/
def sumq : List Struct → ℚ
  | [] => 0
  | s :: rest => s.e.toQ + sumq rest

/-- The absolute energy of the first feature of a buffer (0 if empty). -/
def headE : List Struct → ℚ
  | [] => 0
  | s :: _ => s.e.toQ

/-- The label and child references of a feature, which the traceback
energy conversions preserve. -/
def stripDI (s : Struct) : String × List (Nat × Nat) := (s.desc, s.ij)

theorem sumq_singleton (s : Struct) : sumq [s] = s.e.toQ := by
  show s.e.toQ + 0 = s.e.toQ
  ring

theorem sumq_append (l1 l2 : List Struct) :
    sumq (l1 ++ l2) = sumq l1 + sumq l2 := by
  induction l1 with
  | nil => simp [sumq]
  | cons s rest ih =>
    show s.e.toQ + sumq (rest ++ l2) = s.e.toQ + sumq rest + sumq l2
    rw [ih]
    ring

theorem headE_append_left (l1 l2 : List Struct) (h : l1 ≠ []) :
    headE (l1 ++ l2) = headE l1 := by
  cases l1 with
  | nil => exact absurd rfl h
  | cons s rest => rfl

theorem getLastD_mem (l : List Struct) (h : l ≠ []) (d : Struct) :
    l.getLastD d ∈ l := by
  induction l with
  | nil => exact absurd rfl h
  | cons s rest ih =>
    cases rest with
    | nil => exact List.mem_singleton.mpr rfl
    | cons t rs =>
      exact List.mem_cons_of_mem _ (ih (fun hc => List.noConfusion hc))

theorem dropLast_getLastD (l : List Struct) (h : l ≠ []) (d : Struct) :
    l.dropLast ++ [l.getLastD d] = l := by
  induction l with
  | nil => exact absurd rfl h
  | cons s rest ih =>
    cases rest with
    | nil => rfl
    | cons t rs =>
      have := ih (fun hc => List.noConfusion hc)
      rw [show (s :: t :: rs).dropLast = s :: (t :: rs).dropLast from rfl]
      rw [show (s :: t :: rs).getLastD d = (t :: rs).getLastD d from rfl]
      rw [List.cons_append, this]

theorem sub_fins (a b : ℚ) :
    (PyFloat.fin a).sub (.fin b) = .fin (a - b) := by
  show PyFloat.add _ _ = _
  rw [show (PyFloat.fin b).neg = .fin (-b) from rfl]
  show PyFloat.fin (a + -b) = .fin (a - b)
  rw [← sub_eq_add_neg]

theorem add_fins (a b : ℚ) :
    (PyFloat.fin a).add (.fin b) = .fin (a + b) := rfl

theorem tenthE_fin (x : PyFloat) (h : tenthE x) : ∃ q, x = .fin q ∧ tenth q := by
  cases x with
  | fin q => exact ⟨q, rfl, h⟩
  | negInf => exact absurd h (by simp [tenthE])
  | posInf => exact absurd h (by simp [tenthE])

theorem roundTo1_sub_tenths (x y : PyFloat) (hx : tenthE x) (hy : tenthE y) :
    roundTo1 (x.sub y) = x.sub y ∧ tenthE (x.sub y)
      ∧ (x.sub y).toQ = x.toQ - y.toQ := by
  obtain ⟨a, hxa, hta⟩ := tenthE_fin x hx
  obtain ⟨b, hyb, htb⟩ := tenthE_fin y hy
  subst hxa
  subst hyb
  rw [sub_fins]
  have htab : tenth (a - b) := tenth_sub a b hta htb
  exact ⟨roundTo1_tenth _ htab, htab, rfl⟩

theorem add_tenths (x y : PyFloat) (hx : tenthE x) (hy : tenthE y) :
    tenthE (x.add y) ∧ (x.add y).toQ = x.toQ + y.toQ := by
  obtain ⟨a, hxa, hta⟩ := tenthE_fin x hx
  obtain ⟨b, hyb, htb⟩ := tenthE_fin y hy
  subst hxa
  subst hyb
  rw [add_fins]
  exact ⟨tenth_add a b hta htb, rfl⟩

theorem tbE_strip (l : List Struct) :
    (trackback_energy l).map stripDI = l.map stripDI := by
  induction l with
  | nil => rfl
  | cons s rest ih =>
    cases rest with
    | nil => rfl
    | cons t rs =>
      show stripDI s :: (trackback_energy (t :: rs)).map stripDI
        = stripDI s :: (t :: rs).map stripDI
      rw [ih]

theorem tbE_length (l : List Struct) :
    (trackback_energy l).length = l.length := by
  have h1 := congrArg List.length (tbE_strip l)
  rwa [List.length_map, List.length_map] at h1

theorem tbE_tenth (l : List Struct) (h : ∀ s ∈ l, tenthE s.e) :
    ∀ s ∈ trackback_energy l, tenthE s.e := by
  induction l with
  | nil => intro s hs; exact absurd hs (List.not_mem_nil _)
  | cons s rest ih =>
    cases rest with
    | nil =>
      intro x hx
      rcases List.mem_singleton.mp hx with hxe
      subst hxe
      have hs := h s (List.mem_cons_self _ _)
      have h0 : tenthE (PyFloat.fin 0) := tenth_zero
      have := roundTo1_sub_tenths s.e (.fin 0) hs h0
      show tenthE (roundTo1 (s.e.sub (.fin 0)))
      rw [this.1]
      exact this.2.1
    | cons t rs =>
      intro x hx
      rcases List.mem_cons.mp hx with hxe | hxr
      · subst hxe
        have hs := h s (List.mem_cons_self _ _)
        have ht := h t (List.mem_cons_of_mem _ (List.mem_cons_self _ _))
        have := roundTo1_sub_tenths s.e t.e hs ht
        show tenthE (roundTo1 (s.e.sub t.e))
        rw [this.1]
        exact this.2.1
      · exact ih (fun y hy => h y (List.mem_cons_of_mem _ hy)) x hxr

theorem tbE_sum (l : List Struct) (h : ∀ s ∈ l, tenthE s.e) :
    sumq (trackback_energy l) = headE l := by
  induction l with
  | nil => rfl
  | cons s rest ih =>
    cases rest with
    | nil =>
      have hs := h s (List.mem_cons_self _ _)
      have h0 : tenthE (PyFloat.fin 0) := tenth_zero
      obtain ⟨hr, -, hq⟩ := roundTo1_sub_tenths s.e (.fin 0) hs h0
      show (roundTo1 (s.e.sub (.fin 0))).toQ + sumq [] = s.e.toQ
      rw [hr, hq]
      show s.e.toQ - (PyFloat.fin 0).toQ + 0 = s.e.toQ
      show s.e.toQ - 0 + 0 = s.e.toQ
      ring
    | cons t rs =>
      have hs := h s (List.mem_cons_self _ _)
      have ht := h t (List.mem_cons_of_mem _ (List.mem_cons_self _ _))
      obtain ⟨hr, -, hq⟩ := roundTo1_sub_tenths s.e t.e hs ht
      have ihr := ih (fun y hy => h y (List.mem_cons_of_mem _ hy))
      show (roundTo1 (s.e.sub t.e)).toQ
        + sumq (trackback_energy (t :: rs)) = s.e.toQ
      rw [hr, hq, ihr]
      show s.e.toQ - t.e.toQ + t.e.toQ = s.e.toQ
      ring

theorem tb_multi_strip (outer : List Struct) (esum : PyFloat)
    (brs : List Struct) (h : outer ≠ []) :
    (tb_multi outer esum brs).map stripDI =
      outer.map stripDI ++ brs.map stripDI := by
  unfold tb_multi
  conv_rhs => rw [← dropLast_getLastD outer h STRUCT_NULL]
  rw [List.map_append, List.map_append, List.map_append]
  rfl

theorem tb_multi_sum (outer : List Struct) (esum : PyFloat)
    (brs : List Struct) (h : outer ≠ [])
    (houter : ∀ s ∈ outer, tenthE s.e) (hesum : tenthE esum) :
    sumq (tb_multi outer esum brs) =
      sumq outer - esum.toQ + sumq brs := by
  unfold tb_multi
  rw [sumq_append, sumq_append, sumq_singleton]
  have hlast : (outer.getLastD STRUCT_NULL) ∈ outer := getLastD_mem outer h _
  obtain ⟨hr, -, hq⟩ := roundTo1_sub_tenths
    (outer.getLastD STRUCT_NULL).e esum (houter _ hlast) hesum
  have hcell : (⟨roundTo1 ((outer.getLastD STRUCT_NULL).e.sub esum),
      (outer.getLastD STRUCT_NULL).desc,
      (outer.getLastD STRUCT_NULL).ij⟩ : Struct).e.toQ
      = (outer.getLastD STRUCT_NULL).e.toQ - esum.toQ := by
    show (roundTo1 ((outer.getLastD STRUCT_NULL).e.sub esum)).toQ = _
    rw [hr, hq]
  rw [hcell]
  have houter_split : sumq outer
      = sumq outer.dropLast + (outer.getLastD STRUCT_NULL).e.toQ := by
    conv_lhs => rw [← dropLast_getLastD outer h STRUCT_NULL]
    rw [sumq_append, sumq_singleton]
  rw [houter_split]
  ring

theorem tb_go_shape : ∀ (fuel i j : Nat) (cache : Cache)
    (acc out : List Struct), tb_go fuel i j cache acc = some out →
    ∃ rest, out.map stripDI = acc.map stripDI
      ++ [((getS cache i j).desc, [(i, j)])] ++ rest := by
  intro fuel
  induction fuel with
  | zero =>
    intro i j cache acc out h
    exact absurd h (by simp [tb_go])
  | succ f ih =>
    intro i j cache acc out h
    unfold tb_go at h
    cases hij : (getS cache i j).ij with
    | nil =>
      rw [hij] at h
      dsimp only at h
      refine ⟨[], ?_⟩
      rw [← Option.some.inj h, tbE_strip, List.map_append]
      simp [stripDI, Struct.with_ij]
    | cons p tl =>
      cases tl with
      | nil =>
        rw [hij] at h
        dsimp only at h
        obtain ⟨rest, hrest⟩ := ih p.1 p.2 cache
          (acc ++ [(getS cache i j).with_ij [(i, j)]]) out h
        refine ⟨[((getS cache p.1 p.2).desc, [(p.1, p.2)])] ++ rest, ?_⟩
        rw [hrest, List.map_append]
        simp [stripDI, Struct.with_ij]
      | cons q tl2 =>
        rw [hij] at h
        dsimp only at h
        cases hbr : tb_branches f (p :: q :: tl2) cache with
        | none =>
          rw [hbr] at h
          exact absurd h (by simp)
        | some pr =>
          obtain ⟨esum, brs⟩ := pr
          rw [hbr] at h
          dsimp only at h
          have houter_ne : trackback_energy
              (acc ++ [(getS cache i j).with_ij [(i, j)]]) ≠ [] := by
            intro hc
            have hlen := congrArg List.length hc
            rw [tbE_length] at hlen
            simp at hlen
          refine ⟨brs.map stripDI, ?_⟩
          rw [← Option.some.inj h, tb_multi_strip _ esum brs houter_ne,
            tbE_strip, List.map_append]
          simp [stripDI, Struct.with_ij]

theorem tb_sum_main : ∀ (fuel : Nat),
    (∀ (i j : Nat) (cache : Cache) (acc out : List Struct),
      (∀ a b, tenthE (getS cache a b).e) → (∀ s ∈ acc, tenthE s.e) →
      tb_go fuel i j cache acc = some out →
      sumq out = headE (acc ++ [(getS cache i j).with_ij [(i, j)]]))
    ∧ (∀ (ps : List (Nat × Nat)) (cache : Cache) (esum : PyFloat)
        (brs : List Struct),
      (∀ a b, tenthE (getS cache a b).e) →
      tb_branches fuel ps cache = some (esum, brs) →
      sumq brs = esum.toQ ∧ tenthE esum) := by
  intro fuel
  induction fuel with
  | zero =>
    constructor
    · intro i j cache acc out _ _ h
      exact absurd h (by simp [tb_go])
    · intro ps cache esum brs _ h
      cases ps with
      | nil =>
        have h' := Option.some.inj h
        have he : PyFloat.fin 0 = esum := congrArg Prod.fst h'
        have hb : ([] : List Struct) = brs := congrArg Prod.snd h'
        rw [← he, ← hb]
        exact ⟨rfl, tenth_zero⟩
      | cons p tl => exact absurd h (by simp [tb_branches])
  | succ f ihf =>
    obtain ⟨ihgo, ihbr⟩ := ihf
    constructor
    · intro i j cache acc out hT hacc h
      have haccx : ∀ s ∈ acc ++ [(getS cache i j).with_ij [(i, j)]],
          tenthE s.e := by
        intro s hs
        rcases List.mem_append.mp hs with hs | hs
        · exact hacc s hs
        · have hse := List.mem_singleton.mp hs
          rw [hse]
          exact hT i j
      unfold tb_go at h
      cases hij : (getS cache i j).ij with
      | nil =>
        rw [hij] at h
        dsimp only at h
        rw [← Option.some.inj h]
        exact tbE_sum _ haccx
      | cons p tl =>
        cases tl with
        | nil =>
          rw [hij] at h
          dsimp only at h
          have hrec := ihgo p.1 p.2 cache
            (acc ++ [(getS cache i j).with_ij [(i, j)]]) out hT haccx h
          rw [hrec]
          exact headE_append_left _ _ (by simp)
        | cons q tl2 =>
          rw [hij] at h
          dsimp only at h
          cases hbr : tb_branches f (p :: q :: tl2) cache with
          | none =>
            rw [hbr] at h
            exact absurd h (by simp)
          | some pr =>
            obtain ⟨esum, brs⟩ := pr
            rw [hbr] at h
            dsimp only at h
            obtain ⟨hsum, hten⟩ := ihbr (p :: q :: tl2) cache esum brs hT hbr
            rw [← Option.some.inj h]
            have houter_ne : trackback_energy
                (acc ++ [(getS cache i j).with_ij [(i, j)]]) ≠ [] := by
              intro hc
              have hlen := congrArg List.length hc
              rw [tbE_length] at hlen
              simp at hlen
            rw [tb_multi_sum _ esum brs houter_ne (tbE_tenth _ haccx) hten]
            rw [tbE_sum _ haccx, hsum]
            ring
    · intro ps cache esum brs hT h
      cases ps with
      | nil =>
        have h' := Option.some.inj h
        have he : PyFloat.fin 0 = esum := congrArg Prod.fst h'
        have hb : ([] : List Struct) = brs := congrArg Prod.snd h'
        rw [← he, ← hb]
        exact ⟨rfl, tenth_zero⟩
      | cons p tl =>
        unfold tb_branches at h
        cases htb : tb_go f p.1 p.2 cache [] with
        | none =>
          rw [htb] at h
          exact absurd h (by simp)
        | some tb =>
          rw [htb] at h
          dsimp only at h
          cases hrest : tb_branches f tl cache with
          | none =>
            rw [hrest] at h
            exact absurd h (by simp)
          | some pr0 =>
            obtain ⟨esum0, brs0⟩ := pr0
            rw [hrest] at h
            dsimp only at h
            obtain ⟨rest, hshape⟩ := tb_go_shape f p.1 p.2 cache [] tb htb
            have htb_ne : tb ≠ [] := by
              intro hc
              rw [hc] at hshape
              simp at hshape
            have hhead : (tb.headD STRUCT_NULL).ij = [(p.1, p.2)] := by
              cases tb with
              | nil => exact absurd rfl htb_ne
              | cons t0 tb' =>
                simp only [List.map_cons, List.map_nil, List.nil_append,
                  List.cons_append] at hshape
                injection hshape with h1 h2
                exact congrArg Prod.snd h1
            have hguard : tb ≠ [] ∧ (tb.headD STRUCT_NULL).ij ≠ [] := by
              refine ⟨htb_ne, ?_⟩
              rw [hhead]
              simp
            rw [if_pos hguard] at h
            have h' := Option.some.inj h
            have he : (getS cache p.1 p.2).e.add esum0 = esum :=
              congrArg Prod.fst h'
            have hb : tb ++ brs0 = brs := congrArg Prod.snd h'
            rw [← he, ← hb]
            obtain ⟨hs0, ht0⟩ := ihbr tl cache esum0 brs0 hT hrest
            have hgo := ihgo p.1 p.2 cache [] tb hT
              (fun s hs => absurd hs (List.not_mem_nil _)) htb
            have hh : headE ([] ++ [(getS cache p.1 p.2).with_ij
                [(p.1, p.2)]]) = (getS cache p.1 p.2).e.toQ := rfl
            obtain ⟨htA, htQ⟩ := add_tenths (getS cache p.1 p.2).e esum0
              (hT p.1 p.2) ht0
            constructor
            · rw [sumq_append, hgo, hh, hs0, htQ]
            · exact htA

/-- C1: for every terminating traceback run started with an empty
buffer, the sum of the marginal energies of all returned Structs equals
the absolute cached free energy of the chosen root cell, the per-step
rounding being exact because every cached energy is a multiple of one
tenth; and the marginal conversion is literally
`round(own - next, 1)` per feature, `round(own - 0.0, 1)` for the
innermost one. -/
theorem C1_traceback_marginal_sum (fuel i j : Nat) (cache : Cache)
    (out : List Struct)
    (hT : ∀ a b, tenthE (getS cache a b).e)
    (h : tb_go fuel i j cache [] = some out) :
    sumq out = (getS cache i j).e.toQ
    ∧ (∀ (s t : Struct) (rest : List Struct),
        trackback_energy (s :: t :: rest) =
          ⟨roundTo1 (s.e.sub t.e), s.desc, s.ij⟩
            :: trackback_energy (t :: rest))
    ∧ (∀ s : Struct, trackback_energy [s] =
        [⟨roundTo1 (s.e.sub (.fin 0)), s.desc, s.ij⟩]) := by
  refine ⟨?_, fun s t rest => rfl, fun s => rfl⟩
  have hmain := (tb_sum_main fuel).1 i j cache [] out hT
    (fun s hs => absurd hs (List.not_mem_nil _)) h
  rw [hmain]
  rfl

theorem C1_traceback_marginal_sum_witness :
    (∀ a b, tenthE
      (getS [[⟨.fin (-1), "HAIRPIN:x", []⟩]] a b).e)
    ∧ tb_go 5 0 0 [[⟨.fin (-1), "HAIRPIN:x", []⟩]] [] =
        some [⟨.fin (-1), "HAIRPIN:x", [(0, 0)]⟩]
    ∧ sumq [⟨.fin (-1), "HAIRPIN:x", [(0, 0)]⟩]
        = (getS [[⟨.fin (-1), "HAIRPIN:x", []⟩]] 0 0).e.toQ := by
  have hT : ∀ a b, tenthE
      (getS [[⟨.fin (-1), "HAIRPIN:x", []⟩]] a b).e := by
    intro a b
    cases a with
    | zero =>
      cases b with
      | zero =>
        show tenthE (PyFloat.fin (-1))
        show tenth (-1)
        norm_num [tenth]
      | succ b' =>
        have : getS [[⟨.fin (-1), "HAIRPIN:x", []⟩]] 0 (b' + 1)
            = JUNK_STRUCT := by
          unfold getS
          rfl
        rw [this]
        exact tenth_zero
    | succ a' =>
      have : getS [[⟨.fin (-1), "HAIRPIN:x", []⟩]] (a' + 1) b
          = JUNK_STRUCT := by
        unfold getS
        rw [List.getElem?_eq_none (by simp)]
        rfl
      rw [this]
      exact tenth_zero
  have hrun : tb_go 5 0 0 [[⟨.fin (-1), "HAIRPIN:x", []⟩]] [] =
      some [⟨.fin (-1), "HAIRPIN:x", [(0, 0)]⟩] := by
    show some (trackback_energy [(⟨.fin (-1), "HAIRPIN:x", []⟩ :
      Struct).with_ij [(0, 0)]]) = _
    unfold trackback_energy Struct.with_ij
    rw [show roundTo1 ((PyFloat.fin (-1)).sub (.fin 0)) = .fin (-1) by
      rw [sub_fins]
      norm_num
      exact roundTo1_tenth _ (by norm_num [tenth])]
  exact ⟨hT, hrun,
    (C1_traceback_marginal_sum 5 0 0 _ _ hT hrun).1⟩

theorem e_fn_frame (ext : Ext) (seq : List Char) (i j : Nat) (temp : ℚ)
    (cache : Cache) (S : Nat × Nat → List (Nat × Nat))
    (nb : List (Nat × Nat)) (nBranches : Nat) (a b : Nat)
    (hab : (a, b) ≠ (i, j)) :
    getS (e_fn ext seq i j temp cache S nb nBranches).2 a b =
      getS cache a b := by
  unfold e_fn
  by_cases h0 : getS cache i j ≠ STRUCT_DEFAULT
  · rw [if_pos h0]
  · rw [if_neg h0]
    by_cases hiso :
        (isolatedOuterB ext seq i j && isolatedInnerB ext seq i j) = true
    · rw [if_pos hiso]
      exact getS_setS_ne cache i j a b _ hab
    · rw [if_neg hiso]
      by_cases h4 : j - i = 4
      · rw [if_pos h4]
        exact getS_setS_ne cache i j a b _ hab
      · rw [if_neg h4]
        exact getS_setS_ne cache i j a b _ hab

theorem min_struct_not_posInf (l : List Struct) (t : Struct) (ht : t ∈ l)
    (q : ℚ) (hq : t.e = .fin q) : (min_struct l).e ≠ PyFloat.posInf := by
  intro hp
  have hmin := min_struct_min l t ht
    (by rw [hq]; exact fun hc => PyFloat.noConfusion hc)
  rw [hp, hq] at hmin
  exact Bool.noConfusion hmin

theorem min_struct_fin_of_fin_mem (l : List Struct) (t : Struct)
    (ht : t ∈ l) (q : ℚ) (hq : t.e = .fin q) :
    ∃ r, (min_struct l).e = .fin r := by
  have hne := foldl_minStep_ne_negInf l STRUCT_NULL
    (fun hc => PyFloat.noConfusion hc)
  have hnp := min_struct_not_posInf l t ht q hq
  cases hm : (min_struct l).e with
  | fin r => exact ⟨r, rfl⟩
  | negInf => exact absurd hm hne
  | posInf => exact absurd hm hnp

/-- On a `tuple` return, `_e` writes exactly its returned struct to its
own cell, and that struct's energy is finite. -/
theorem e_fn_tuple_write (ext : Ext) (seq : List Char) (i j : Nat)
    (temp : ℚ) (cache : Cache) (S : Nat × Nat → List (Nat × Nat))
    (nb nb' : List (Nat × Nat)) (nBranches : Nat) (e : Struct)
    (cache' : Cache)
    (h : e_fn ext seq i j temp cache S nb nBranches =
      (.tuple e nb', cache')) :
    cache' = setS cache i j e ∧ ∃ q, e.e = .fin q := by
  unfold e_fn at h
  by_cases h0 : getS cache i j ≠ STRUCT_DEFAULT
  · rw [if_pos h0] at h
    have := congrArg Prod.fst h
    exact absurd this (by simp)
  · rw [if_neg h0] at h
    by_cases hiso :
        (isolatedOuterB ext seq i j && isolatedInnerB ext seq i j) = true
    · rw [if_pos hiso] at h
      have := congrArg Prod.fst h
      exact absurd this (by simp)
    · rw [if_neg hiso] at h
      by_cases h4 : j - i = 4
      · rw [if_pos h4] at h
        have h1 := congrArg Prod.fst h
        have h2 := congrArg Prod.snd h
        dsimp only at h1 h2
        injection h1 with he hnb
        refine ⟨?_, ?_⟩
        · rw [← h2, he]
        · rw [← he]
          exact ⟨ext.hairpinE seq i j temp, rfl⟩
      · rw [if_neg h4] at h
        have h1 := congrArg Prod.fst h
        have h2 := congrArg Prod.snd h
        dsimp only at h1 h2
        injection h1 with he hnb
        refine ⟨?_, ?_⟩
        · rw [← h2, he]
        · rw [← he]
          exact min_struct_fin_of_fin_mem _ (e1Of ext seq i j temp)
            (List.mem_cons_self _ _) (ext.hairpinE seq i j temp) rfl

/-- Frame property of one `l_fix > 0` fill iteration: only the cell of
the processed pair is written. -/
theorem fillStepFix_frame (ext : Ext) (seq : List Char) (temp : ℚ)
    (S : Nat × Nat → List (Nat × Nat)) (nBranches n lfix : Nat)
    (st st' : FillState) (bp : Nat × Nat)
    (h : fillStepFix ext seq temp S nBranches n lfix st bp = .ok st')
    (a b : Nat) (hab : (a, b) ≠ bp) :
    getS st'.cache a b = getS st.cache a b := by
  have hab' : (a, b) ≠ (bp.1, bp.2) := by
    rw [Prod.mk.eta]
    exact hab
  unfold fillStepFix at h
  by_cases hfix : bp ∈ fixedBp lfix n
  · rw [if_pos hfix] at h
    by_cases hcmp : ext.complement (seq.getD (bp.1 + 1) ' ')
        ≠ seq.getD (bp.2 - 1) ' '
    · rw [if_pos hcmp] at h
      have := Except.ok.inj h
      rw [← this]
    · rw [if_neg hcmp] at h
      cases hl : st.lastE with
      | none =>
        rw [hl] at h
        exact absurd h (by simp)
      | some eOld =>
        rw [hl] at h
        dsimp only at h
        by_cases hlt : eOld.e.lt st.minE = true
        · rw [if_pos hlt] at h
          have hc := congrArg FillState.cache (Except.ok.inj h)
          dsimp only at hc
          rw [← hc]
          exact getS_setS_ne st.cache bp.1 bp.2 a b _ hab'
        · rw [if_neg hlt] at h
          have hc := congrArg FillState.cache (Except.ok.inj h)
          dsimp only at hc
          rw [← hc]
          exact getS_setS_ne st.cache bp.1 bp.2 a b _ hab'
  · rw [if_neg hfix] at h
    dsimp only at h
    cases hup : unpackE (e_fn ext seq bp.1 bp.2 temp st.cache S st.nb
        nBranches).1 with
    | error err =>
      rw [hup] at h
      exact absurd h (by simp)
    | ok pr =>
      obtain ⟨e, nb2⟩ := pr
      rw [hup] at h
      dsimp only at h
      by_cases hlt : e.e.lt st.minE = true
      · rw [if_pos hlt] at h
        have hc := congrArg FillState.cache (Except.ok.inj h)
        dsimp only at hc
        rw [← hc]
        exact e_fn_frame ext seq bp.1 bp.2 temp st.cache S st.nb
          nBranches a b hab'
      · rw [if_neg hlt] at h
        have hc := congrArg FillState.cache (Except.ok.inj h)
        dsimp only at hc
        rw [← hc]
        exact e_fn_frame ext seq bp.1 bp.2 temp st.cache S st.nb
          nBranches a b hab'

/-- Cache dimensions: `n` rows of `n` cells. -/
def cacheShape (c : Cache) (n : Nat) : Prop :=
  c.length = n ∧ ∀ row ∈ c, row.length = n

theorem mkCache_shape (n : Nat) : cacheShape (mkCache n) n := by
  constructor
  · exact List.length_replicate n _
  · intro row hrow
    rw [List.eq_of_mem_replicate hrow]
    exact List.length_replicate n _

theorem setS_shape (c : Cache) (i j : Nat) (v : Struct) (n : Nat)
    (h : cacheShape c n) : cacheShape (setS c i j v) n :=
  ⟨by rw [setS_length]; exact h.1, setS_rows c i j v n h.2⟩

theorem e_fn_cache_cases (ext : Ext) (seq : List Char) (i j : Nat)
    (temp : ℚ) (cache : Cache) (S : Nat × Nat → List (Nat × Nat))
    (nb : List (Nat × Nat)) (nBranches : Nat) :
    (e_fn ext seq i j temp cache S nb nBranches).2 = cache
    ∨ ∃ v, (e_fn ext seq i j temp cache S nb nBranches).2 =
        setS cache i j v := by
  unfold e_fn
  by_cases h0 : getS cache i j ≠ STRUCT_DEFAULT
  · rw [if_pos h0]
    left
    rfl
  · rw [if_neg h0]
    by_cases hiso :
        (isolatedOuterB ext seq i j && isolatedInnerB ext seq i j) = true
    · rw [if_pos hiso]
      exact Or.inr ⟨_, rfl⟩
    · rw [if_neg hiso]
      by_cases h4 : j - i = 4
      · rw [if_pos h4]
        exact Or.inr ⟨_, rfl⟩
      · rw [if_neg h4]
        exact Or.inr ⟨_, rfl⟩

theorem fillStepFix_shape (ext : Ext) (seq : List Char) (temp : ℚ)
    (S : Nat × Nat → List (Nat × Nat)) (nBranches n lfix : Nat)
    (st st' : FillState) (bp : Nat × Nat) (nsh : Nat)
    (h : fillStepFix ext seq temp S nBranches n lfix st bp = .ok st')
    (hsh : cacheShape st.cache nsh) : cacheShape st'.cache nsh := by
  unfold fillStepFix at h
  by_cases hfix : bp ∈ fixedBp lfix n
  · rw [if_pos hfix] at h
    by_cases hcmp : ext.complement (seq.getD (bp.1 + 1) ' ')
        ≠ seq.getD (bp.2 - 1) ' '
    · rw [if_pos hcmp] at h
      rw [← Except.ok.inj h]
      exact hsh
    · rw [if_neg hcmp] at h
      cases hl : st.lastE with
      | none =>
        rw [hl] at h
        exact absurd h (by simp)
      | some eOld =>
        rw [hl] at h
        dsimp only at h
        by_cases hlt : eOld.e.lt st.minE = true
        · rw [if_pos hlt] at h
          have hc := congrArg FillState.cache (Except.ok.inj h)
          dsimp only at hc
          rw [← hc]
          exact setS_shape _ _ _ _ _ hsh
        · rw [if_neg hlt] at h
          have hc := congrArg FillState.cache (Except.ok.inj h)
          dsimp only at hc
          rw [← hc]
          exact setS_shape _ _ _ _ _ hsh
  · rw [if_neg hfix] at h
    dsimp only at h
    cases hup : unpackE (e_fn ext seq bp.1 bp.2 temp st.cache S st.nb
        nBranches).1 with
    | error err =>
      rw [hup] at h
      exact absurd h (by simp)
    | ok pr =>
      obtain ⟨e, nb2⟩ := pr
      rw [hup] at h
      dsimp only at h
      have hcases := e_fn_cache_cases ext seq bp.1 bp.2 temp st.cache S
        st.nb nBranches
      have hsh' : cacheShape
          (e_fn ext seq bp.1 bp.2 temp st.cache S st.nb nBranches).2 nsh := by
        rcases hcases with hc | ⟨v, hc⟩
        · rw [hc]; exact hsh
        · rw [hc]; exact setS_shape _ _ _ _ _ hsh
      by_cases hlt : e.e.lt st.minE = true
      · rw [if_pos hlt] at h
        have hc := congrArg FillState.cache (Except.ok.inj h)
        dsimp only at hc
        rw [← hc]
        exact hsh'
      · rw [if_neg hlt] at h
        have hc := congrArg FillState.cache (Except.ok.inj h)
        dsimp only at hc
        rw [← hc]
        exact hsh'

theorem fillPairs_append (step : FillState → (Nat × Nat) →
    Except PyErr FillState) (st : FillState) (l1 l2 : List (Nat × Nat)) :
    fillPairs step st (l1 ++ l2) =
      match fillPairs step st l1 with
      | .error err => .error err
      | .ok st1 => fillPairs step st1 l2 := by
  induction l1 generalizing st with
  | nil => rfl
  | cons bp rest ih =>
    have h1 : fillPairs step st ((bp :: rest) ++ l2)
        = match step st bp with
          | .error err => .error err
          | .ok st1 => fillPairs step st1 (rest ++ l2) := rfl
    have h2 : fillPairs step st (bp :: rest)
        = match step st bp with
          | .error err => .error err
          | .ok st1 => fillPairs step st1 rest := rfl
    rw [h1, h2]
    cases step st bp with
    | error err => rfl
    | ok st1 => exact ih st1

theorem fillPairs_frame (ext : Ext) (seq : List Char) (temp : ℚ)
    (S : Nat × Nat → List (Nat × Nat)) (nBranches n lfix : Nat) :
    ∀ (l : List (Nat × Nat)) (st st' : FillState),
    fillPairs (fillStepFix ext seq temp S nBranches n lfix) st l = .ok st' →
    ∀ a b, (∀ p ∈ l, p ≠ (a, b)) →
    getS st'.cache a b = getS st.cache a b := by
  intro l
  induction l with
  | nil =>
    intro st st' h a b _
    rw [← Except.ok.inj h]
  | cons bp rest ih =>
    intro st st' h a b hnot
    unfold fillPairs at h
    cases hstep : fillStepFix ext seq temp S nBranches n lfix st bp with
    | error err =>
      rw [hstep] at h
      exact absurd h (by simp)
    | ok st1 =>
      rw [hstep] at h
      have h1 := ih st1 st' h a b
        (fun p hp => hnot p (List.mem_cons_of_mem _ hp))
      rw [h1]
      exact fillStepFix_frame ext seq temp S nBranches n lfix st st1 bp
        hstep a b
        (fun hc => hnot bp (List.mem_cons_self _ _) hc.symm)

theorem fillPairs_shape (ext : Ext) (seq : List Char) (temp : ℚ)
    (S : Nat × Nat → List (Nat × Nat)) (nBranches n lfix : Nat) :
    ∀ (l : List (Nat × Nat)) (st st' : FillState) (nsh : Nat),
    fillPairs (fillStepFix ext seq temp S nBranches n lfix) st l = .ok st' →
    cacheShape st.cache nsh → cacheShape st'.cache nsh := by
  intro l
  induction l with
  | nil =>
    intro st st' nsh h hsh
    rw [← Except.ok.inj h]
    exact hsh
  | cons bp rest ih =>
    intro st st' nsh h hsh
    unfold fillPairs at h
    cases hstep : fillStepFix ext seq temp S nBranches n lfix st bp with
    | error err =>
      rw [hstep] at h
      exact absurd h (by simp)
    | ok st1 =>
      rw [hstep] at h
      exact ih st1 st' nsh h
        (fillStepFix_shape ext seq temp S nBranches n lfix st st1 bp nsh
          hstep hsh)

/-- Decomposition of a successful fill at an occurrence of `bp`. -/
theorem fillPairs_split (ext : Ext) (seq : List Char) (temp : ℚ)
    (S : Nat × Nat → List (Nat × Nat)) (nBranches n lfix : Nat)
    (l1 l2 : List (Nat × Nat)) (bp : Nat × Nat) (st st' : FillState)
    (h : fillPairs (fillStepFix ext seq temp S nBranches n lfix) st
      (l1 ++ bp :: l2) = .ok st') :
    ∃ stA stB,
      fillPairs (fillStepFix ext seq temp S nBranches n lfix) st l1 =
        .ok stA
      ∧ fillStepFix ext seq temp S nBranches n lfix stA bp = .ok stB
      ∧ fillPairs (fillStepFix ext seq temp S nBranches n lfix) stB l2 =
        .ok st' := by
  rw [fillPairs_append] at h
  cases hA : fillPairs (fillStepFix ext seq temp S nBranches n lfix) st l1
    with
  | error err =>
    rw [hA] at h
    exact absurd h (by simp)
  | ok stA =>
    rw [hA] at h
    unfold fillPairs at h
    cases hB : fillStepFix ext seq temp S nBranches n lfix stA bp with
    | error err =>
      rw [hB] at h
      exact absurd h (by simp)
    | ok stB =>
      rw [hB] at h
      exact ⟨stA, stB, rfl, hB, h⟩

/-- Span of a candidate pair (`d = j - i`). -/
def spanOf (p : Nat × Nat) : Nat := p.2 - p.1

theorem insD_mem (x z : Nat × List (Nat × Nat)) :
    ∀ (l : List (Nat × List (Nat × Nat))),
    z ∈ insD x l ↔ z = x ∨ z ∈ l := by
  intro l
  induction l with
  | nil =>
    unfold insD
    simp
  | cons y ys ih =>
    unfold insD
    by_cases hk : x.1 < y.1
    · rw [if_pos hk]
      simp [List.mem_cons]
    · rw [if_neg hk]
      simp only [List.mem_cons, ih]
      tauto

theorem insD_pairwise (x : Nat × List (Nat × Nat)) :
    ∀ (l : List (Nat × List (Nat × Nat))),
    l.Pairwise (fun g1 g2 => g1.1 ≤ g2.1) →
    (insD x l).Pairwise (fun g1 g2 => g1.1 ≤ g2.1) := by
  intro l
  induction l with
  | nil =>
    intro _
    exact List.pairwise_singleton _ _
  | cons y ys ih =>
    intro hl
    rcases List.pairwise_cons.mp hl with ⟨hy, hys⟩
    unfold insD
    by_cases hk : x.1 < y.1
    · rw [if_pos hk]
      refine List.pairwise_cons.mpr ⟨?_, hl⟩
      intro z hz
      rcases List.mem_cons.mp hz with hz | hz
      · rw [hz]
        omega
      · have := hy z hz
        omega
    · rw [if_neg hk]
      refine List.pairwise_cons.mpr ⟨?_, ih hys⟩
      intro z hz
      rcases (insD_mem x z ys).mp hz with hz | hz
      · rw [hz]
        omega
      · exact hy z hz

theorem sortD_pairwise : ∀ (D : List (Nat × List (Nat × Nat))),
    (sortD D).Pairwise (fun g1 g2 => g1.1 ≤ g2.1) := by
  intro D
  induction D with
  | nil => exact List.Pairwise.nil
  | cons g gs ih => exact insD_pairwise g (sortD gs) ih

theorem sortD_mem (z : Nat × List (Nat × Nat)) :
    ∀ (D : List (Nat × List (Nat × Nat))), z ∈ sortD D ↔ z ∈ D := by
  intro D
  induction D with
  | nil => exact Iff.rfl
  | cons g gs ih =>
    show z ∈ insD g (sortD gs) ↔ _
    rw [insD_mem, ih]
    simp [List.mem_cons]

theorem flat_mem (q : Nat × Nat) : ∀ (gs : List (Nat × List (Nat × Nat))),
    q ∈ gs.foldr (fun e acc => e.2.dedup ++ acc) [] ↔
      ∃ g ∈ gs, q ∈ g.2 := by
  intro gs
  induction gs with
  | nil => simp
  | cons g rest ih =>
    show q ∈ g.2.dedup ++ _ ↔ _
    rw [List.mem_append, List.mem_dedup, ih]
    constructor
    · rintro (h | ⟨g', hg', hq⟩)
      · exact ⟨g, List.mem_cons_self _ _, h⟩
      · exact ⟨g', List.mem_cons_of_mem _ hg', hq⟩
    · rintro ⟨g', hg', hq⟩
      rcases List.mem_cons.mp hg' with hg' | hg'
      · left
        rw [← hg']
        exact hq
      · right
        exact ⟨g', hg', hq⟩

theorem pairwise_of_mem {α : Type} (R : α → α → Prop) :
    ∀ (l : List α), (∀ a ∈ l, ∀ b ∈ l, R a b) → l.Pairwise R := by
  intro l
  induction l with
  | nil => intro _; exact List.Pairwise.nil
  | cons a rest ih =>
    intro h
    refine List.pairwise_cons.mpr ⟨?_, ?_⟩
    · intro b hb
      exact h a (List.mem_cons_self _ _) b (List.mem_cons_of_mem _ hb)
    · exact ih (fun x hx y hy =>
        h x (List.mem_cons_of_mem _ hx) y (List.mem_cons_of_mem _ hy))

theorem flat_span_sorted : ∀ (gs : List (Nat × List (Nat × Nat))),
    gs.Pairwise (fun g1 g2 => g1.1 ≤ g2.1) →
    (∀ g ∈ gs, ∀ p ∈ g.2, spanOf p = g.1) →
    (gs.foldr (fun e acc => e.2.dedup ++ acc) []).Pairwise
      (fun p q => spanOf p ≤ spanOf q) := by
  intro gs
  induction gs with
  | nil =>
    intro _ _
    exact List.Pairwise.nil
  | cons g rest ih =>
    intro hsorted hspans
    rcases List.pairwise_cons.mp hsorted with ⟨hg, hrest⟩
    show (g.2.dedup ++ _).Pairwise _
    apply List.pairwise_append.mpr
    refine ⟨?_, ih hrest (fun g' hg' => hspans g' (List.mem_cons_of_mem _ hg')), ?_⟩
    · apply pairwise_of_mem
      intro a ha b hb
      rw [List.mem_dedup] at ha hb
      rw [hspans g (List.mem_cons_self _ _) a ha,
        hspans g (List.mem_cons_self _ _) b hb]
    · intro a ha b hb
      rw [List.mem_dedup] at ha
      rcases (flat_mem b rest).mp hb with ⟨g', hg', hbg⟩
      rw [hspans g (List.mem_cons_self _ _) a ha,
        hspans g' (List.mem_cons_of_mem _ hg') b hbg]
      exact hg g' hg'

/-- The ascending-span fill order: from `D` with span-consistent keys,
`fillOrder D` is sorted by span. -/
theorem fillOrder_span_sorted (D : List (Nat × List (Nat × Nat)))
    (hD : ∀ g ∈ D, ∀ p ∈ g.2, spanOf p = g.1) :
    (fillOrder D).Pairwise (fun p q => spanOf p ≤ spanOf q) := by
  unfold fillOrder
  exact flat_span_sorted (sortD D) (sortD_pairwise D)
    (fun g hg => hD g ((sortD_mem g D).mp hg))

theorem mem_split_nodup {α : Type} [DecidableEq α] (l : List α) (a : α)
    (ha : a ∈ l) (hnd : l.Nodup) :
    ∃ l1 l2, l = l1 ++ a :: l2 ∧ a ∉ l1 ∧ a ∉ l2 := by
  obtain ⟨l1, l2, hl⟩ := List.append_of_mem ha
  refine ⟨l1, l2, hl, ?_, ?_⟩
  · intro hmem
    rw [hl] at hnd
    have hd := (List.nodup_append.mp hnd).2.2
    exact hd hmem (List.mem_cons_self _ _)
  · intro hmem
    rw [hl] at hnd
    have hd := (List.nodup_append.mp hnd).2.1
    exact (List.nodup_cons.mp hd).1 hmem

theorem getS_mkCache (n a b : Nat) (ha : a < n) (hb : b < n) :
    getS (mkCache n) a b = STRUCT_DEFAULT := by
  unfold getS mkCache
  rw [List.getElem?_eq_getElem (by rw [List.length_replicate]; exact ha)]
  dsimp only [Option.bind]
  rw [List.getElem_replicate]
  rw [List.getElem?_eq_getElem (by rw [List.length_replicate]; exact hb)]
  rw [List.getElem_replicate]
  rfl

theorem list_set_self {α : Type} (l : List α) (j : Nat) (v : α)
    (hv : getElem? l j = some v) : l.set j v = l := by
  apply List.ext_getElem?
  intro m
  by_cases hm : m = j
  · subst hm
    rw [hv]
    have hj : m < l.length := by
      by_contra hge
      rw [List.getElem?_eq_none (Nat.le_of_not_lt hge)] at hv
      exact Option.noConfusion hv
    exact List.getElem?_set_eq_of_lt v (by simpa using hj)
  · exact List.getElem?_set_ne (fun hc => hm hc.symm)

theorem setS_self (c : Cache) (i j : Nat)
    (row : List Struct) (hrow : getElem? c i = some row)
    (hj : j < row.length) : setS c i j (getS c i j) = c := by
  unfold setS getS
  rw [hrow]
  dsimp only [Option.bind]
  rw [List.getElem?_eq_getElem hj]
  show List.set c i (row.set j row[j]) = c
  rw [list_set_self row j _ (List.getElem?_eq_getElem hj)]
  exact list_set_self c i row hrow

/-- With a fixed stem requested, the exterior block leaves cache and
best pair unchanged (the whole-sequence cell is still read first). -/
theorem exteriorResolve_of_lfix_ne
    (oe : Cache → List (Nat × Nat) → Option ℚ) (cache : Cache)
    (minS : Option (Nat × Nat)) (minE : PyFloat) (bps : List (Nat × Nat))
    (nBranches lfix n : Nat) (hl : lfix ≠ 0) (hn0 : 0 < n)
    (hsh : cacheShape cache n) :
    exteriorResolve oe cache minS minE bps nBranches lfix n =
      .ok (cache, minS) := by
  have h0' : 0 < cache.length := by rw [hsh.1]; exact hn0
  have hrl : cache[0].length = n := hsh.2 _ (List.getElem_mem h0')
  have hn1 : n - 1 < cache[0].length := by rw [hrl]; omega
  have hc00 : (getElem? cache 0).bind (fun row => getElem? row (n - 1)) =
      some cache[0][n - 1] := by
    rw [List.getElem?_eq_getElem h0']
    exact List.getElem?_eq_getElem hn1
  unfold exteriorResolve
  rw [hc00]
  dsimp only
  rw [if_neg]
  simp only [Bool.and_eq_true, decide_eq_true_eq]
  intro hcontra
  exact hl hcontra.2

/-- The struct the fixed-stem force-write stores for the stem pair
`(m, n-1-m)` when the inner cell holds energy `inner`. -/
def stemStruct (ext : Ext) (sequ : List Char) (tempK : ℚ) (n m : Nat)
    (inner : PyFloat) : Struct :=
  ⟨(PyFloat.fin (ext.stackE sequ m (m + 1) (n - 1 - m) (n - 1 - m - 1)
      tempK)).add inner,
   "STACK:" ++ ext.pairLabel sequ m (m + 1) (n - 1 - m) (n - 1 - m - 1),
   [(m + 1, n - 1 - m - 1)]⟩

theorem tb_go_step_single (fuel i j : Nat) (cache : Cache)
    (acc : List Struct) (p : Nat × Nat)
    (hij : (getS cache i j).ij = [p]) :
    tb_go (fuel + 1) i j cache acc =
      tb_go fuel p.1 p.2 cache
        (acc ++ [(getS cache i j).with_ij [(i, j)]]) := by
  have h1 : tb_go (fuel + 1) i j cache acc =
      match (getS cache i j).ij with
      | [] => some (trackback_energy
          (acc ++ [(getS cache i j).with_ij [(i, j)]]))
      | [q] => tb_go fuel q.1 q.2 cache
          (acc ++ [(getS cache i j).with_ij [(i, j)]])
      | ps =>
        match tb_branches fuel ps cache with
        | none => none
        | some (esum, brs) =>
          some (tb_multi
            (trackback_energy (acc ++ [(getS cache i j).with_ij [(i, j)]]))
            esum brs) := rfl
  rw [h1, hij]

/-- Unrolling the traceback along a singleton-link chain down the fixed
stem: after `K` steps the traversal sits at `(K, n-1-K)` with the stem
copies accumulated. -/
theorem chain_unroll (cache : Cache) (n lfix : Nat)
    (hcells : ∀ m, m < lfix - 1 → (getS cache m (n - 1 - m)).ij
      = [(m + 1, n - 1 - (m + 1))]) :
    ∀ K, K ≤ lfix - 1 → ∀ (fuel : Nat) (acc : List Struct),
    tb_go (fuel + K) 0 (n - 1) cache acc =
      tb_go fuel K (n - 1 - K) cache
        (acc ++ (List.range K).map
          (fun m => (getS cache m (n - 1 - m)).with_ij [(m, n - 1 - m)])) := by
  intro K
  induction K with
  | zero =>
    intro _ fuel acc
    simp
  | succ k ih =>
    intro hK fuel acc
    have h1 : fuel + (k + 1) = (fuel + 1) + k := by omega
    rw [h1, ih (by omega) (fuel + 1) acc]
    have hcell := hcells k (by omega)
    rw [tb_go_step_single fuel k (n - 1 - k) cache _ _ hcell]
    rw [List.range_succ, List.map_append, ← List.append_assoc]
    rfl

theorem unpackE_ok (r : ERes) (e : Struct) (nb : List (Nat × Nat))
    (h : unpackE r = .ok (e, nb)) : r = .tuple e nb := by
  cases r with
  | single s => exact absurd h (by simp [unpackE])
  | tuple s nb2 =>
    simp only [unpackE, Except.ok.injEq, Prod.mk.injEq] at h
    rw [h.1, h.2]

theorem getS_setS_self_sh (c : Cache) (i j : Nat) (v : Struct) (n : Nat)
    (hsh : cacheShape c n) (hi : i < n) (hj : j < n) :
    getS (setS c i j v) i j = v := by
  apply getS_setS_self
  · rw [hsh.1]
    exact hi
  · rw [hsh.1]
    exact hj
  · intro row hr
    rw [hsh.2 row hr, hsh.1]

theorem mem_fixedBp (lfix n m : Nat) (hm : m < lfix - 1) :
    (m, n - 1 - m) ∈ fixedBp lfix n := by
  unfold fixedBp
  exact List.mem_map.mpr ⟨m, List.mem_range.mpr hm, rfl⟩

theorem not_mem_fixedBp_inner (lfix n : Nat) :
    (lfix - 1, n - 1 - (lfix - 1)) ∉ fixedBp lfix n := by
  unfold fixedBp
  intro hmem
  obtain ⟨k, hk, hkeq⟩ := List.mem_map.mp hmem
  have hk' := List.mem_range.mp hk
  have h1 : k = lfix - 1 := congrArg Prod.fst hkeq
  omega

/-- On a non-fixed pair, a successful `l_fix > 0` fill step stores the
tuple-returned struct, of finite energy, into the pair's own cell. -/
theorem fillStepFix_generic (ext : Ext) (seq : List Char) (temp : ℚ)
    (S : Nat × Nat → List (Nat × Nat)) (nBranches n lfix : Nat)
    (st st' : FillState) (bp : Nat × Nat)
    (hfix : bp ∉ fixedBp lfix n)
    (h : fillStepFix ext seq temp S nBranches n lfix st bp = .ok st') :
    ∃ e : Struct, st'.cache = setS st.cache bp.1 bp.2 e
      ∧ ∃ q, e.e = .fin q := by
  unfold fillStepFix at h
  rw [if_neg hfix] at h
  dsimp only at h
  cases hup : unpackE (e_fn ext seq bp.1 bp.2 temp st.cache S st.nb
      nBranches).1 with
  | error err =>
    rw [hup] at h
    exact absurd h (by simp)
  | ok pr =>
    obtain ⟨e, nb2⟩ := pr
    rw [hup] at h
    dsimp only at h
    have hr := unpackE_ok _ _ _ hup
    have heq : e_fn ext seq bp.1 bp.2 temp st.cache S st.nb nBranches
        = (.tuple e nb2,
           (e_fn ext seq bp.1 bp.2 temp st.cache S st.nb nBranches).2) := by
      rw [← hr]
    obtain ⟨hset, hfin⟩ := e_fn_tuple_write ext seq bp.1 bp.2 temp
      st.cache S st.nb nb2 nBranches e _ heq
    refine ⟨e, ?_, hfin⟩
    by_cases hlt : e.e.lt st.minE = true
    · rw [if_pos hlt] at h
      have hc := congrArg FillState.cache (Except.ok.inj h)
      dsimp only at hc
      rw [← hc, hset]
    · rw [if_neg hlt] at h
      have hc := congrArg FillState.cache (Except.ok.inj h)
      dsimp only at hc
      rw [← hc, hset]

/-- On a fixed-stem pair with complementary inner neighbours, a finite
inner cell and a dangling-end test that comes out false, a successful
fill step force-writes exactly the stack struct chaining to the inner
cell. -/
theorem fillStepFix_fixed (ext : Ext) (seq : List Char) (temp : ℚ)
    (S : Nat × Nat → List (Nat × Nat)) (nBranches n lfix : Nat)
    (st st' : FillState) (m : Nat)
    (hfix : (m, n - 1 - m) ∈ fixedBp lfix n)
    (hcmp : ext.complement (seq.getD (m + 1) ' ')
      = seq.getD (n - 1 - m - 1) ' ')
    (hde : ¬ ((0 < m ∧ n - 1 - m = n - 1) ∨ (m = 0 ∧ n - 1 - m < n - 1)))
    (q : ℚ) (hq : (getS st.cache (m + 1) (n - 1 - m - 1)).e = .fin q)
    (h : fillStepFix ext seq temp S nBranches n lfix st (m, n - 1 - m)
      = .ok st') :
    st'.cache = setS st.cache m (n - 1 - m)
      (stemStruct ext seq temp n m
        (getS st.cache (m + 1) (n - 1 - m - 1)).e) := by
  unfold fillStepFix at h
  rw [if_pos hfix] at h
  dsimp only at h
  rw [if_neg (not_not_intro hcmp)] at h
  rw [if_neg hde] at h
  rw [hq] at h
  rw [add_fins] at h
  rw [if_pos (⟨fun hc => PyFloat.noConfusion hc, rfl⟩ :
    PyFloat.fin (ext.stackE seq m (m + 1) (n - 1 - m) (n - 1 - m - 1) temp
        + q) ≠ PyFloat.negInf
      ∧ (PyFloat.fin (ext.stackE seq m (m + 1) (n - 1 - m)
        (n - 1 - m - 1) temp + q)).lt PyFloat.posInf = true)] at h
  unfold stemStruct
  rw [hq, add_fins]
  cases hl : st.lastE with
  | none =>
    rw [hl] at h
    exact absurd h (by simp)
  | some eOld =>
    rw [hl] at h
    dsimp only at h
    by_cases hlt : eOld.e.lt st.minE = true
    · rw [if_pos hlt] at h
      have hc := congrArg FillState.cache (Except.ok.inj h)
      dsimp only at hc
      rw [← hc]
    · rw [if_neg hlt] at h
      have hc := congrArg FillState.cache (Except.ok.inj h)
      dsimp only at hc
      rw [← hc]

/-- Final values of the forced stem cells after a successful `l_fix > 0`
fill pass over a span-sorted duplicate-free candidate order containing
the stem pairs: each stem cell holds a finite energy, and each
non-innermost stem cell holds exactly the force-written stack struct
chaining to the next cell inward. -/
theorem stem_cells_final (ext : Ext) (sequ : List Char) (tempK : ℚ)
    (S : Nat × Nat → List (Nat × Nat)) (nB n lfix : Nat)
    (D : List (Nat × List (Nat × Nat))) (st0 stF : FillState)
    (hn : 2 * lfix ≤ n) (hk : 0 < lfix)
    (hsh0 : cacheShape st0.cache n)
    (hD : ∀ g ∈ D, ∀ p ∈ g.2, spanOf p = g.1)
    (hnd : (fillOrder D).Nodup)
    (hmem : ∀ m, m < lfix → (m, n - 1 - m) ∈ fillOrder D)
    (hcompl : ∀ m, 0 < m → m < lfix →
      ext.complement (sequ.getD m ' ') = sequ.getD (n - 1 - m) ' ')
    (hfill : fillPairs (fillStepFix ext sequ tempK S nB n lfix) st0
      (fillOrder D) = .ok stF) :
    ∀ t, t < lfix →
      (∃ q, (getS stF.cache (lfix - 1 - t)
        (n - 1 - (lfix - 1 - t))).e = .fin q)
      ∧ (0 < t → getS stF.cache (lfix - 1 - t) (n - 1 - (lfix - 1 - t)) =
          stemStruct ext sequ tempK n (lfix - 1 - t)
            (getS stF.cache (lfix - t) (n - 1 - (lfix - t))).e) := by
  intro t
  induction t with
  | zero =>
    intro _
    simp only [Nat.sub_zero]
    refine ⟨?_, fun h0 => absurd h0 (by omega)⟩
    obtain ⟨l1, l2, hsplit, h1, h2⟩ := mem_split_nodup _ _
      (hmem (lfix - 1) (by omega)) hnd
    rw [hsplit] at hfill
    obtain ⟨stA, stB, hA, hBstep, hB⟩ := fillPairs_split ext sequ tempK S
      nB n lfix l1 l2 _ st0 stF hfill
    obtain ⟨e, hset, q, hq⟩ := fillStepFix_generic ext sequ tempK S nB n
      lfix stA stB _ (not_mem_fixedBp_inner lfix n) hBstep
    dsimp only at hset
    have hshA : cacheShape stA.cache n :=
      fillPairs_shape ext sequ tempK S nB n lfix l1 st0 stA n hA hsh0
    have hgetB : getS stB.cache (lfix - 1) (n - 1 - (lfix - 1)) = e := by
      rw [hset]
      exact getS_setS_self_sh stA.cache _ _ e n hshA (by omega) (by omega)
    have hgetF : getS stF.cache (lfix - 1) (n - 1 - (lfix - 1)) =
        getS stB.cache (lfix - 1) (n - 1 - (lfix - 1)) :=
      fillPairs_frame ext sequ tempK S nB n lfix l2 stB stF hB _ _
        (fun p hp hc => h2 (hc ▸ hp))
    exact ⟨q, by rw [hgetF, hgetB, hq]⟩
  | succ t ih =>
    intro ht
    obtain ⟨qI, hqI⟩ := (ih (by omega)).1
    set m := lfix - 1 - (t + 1) with hm
    obtain ⟨l1, l2, hsplit, h1, h2⟩ := mem_split_nodup _ _
      (hmem m (by omega)) hnd
    rw [hsplit] at hfill
    obtain ⟨stA, stB, hA, hBstep, hB⟩ := fillPairs_split ext sequ tempK S
      nB n lfix l1 l2 _ st0 stF hfill
    have hshA : cacheShape stA.cache n :=
      fillPairs_shape ext sequ tempK S nB n lfix l1 st0 stA n hA hsh0
    have hcmp : ext.complement (sequ.getD (m + 1) ' ')
        = sequ.getD (n - 1 - m - 1) ' ' := by
      have := hcompl (m + 1) (by omega) (by omega)
      rw [show n - 1 - (m + 1) = n - 1 - m - 1 from by omega] at this
      exact this
    -- the inner stem cell is processed before this one, and untouched after
    have hb'ne : (lfix - 1 - t, n - 1 - (lfix - 1 - t)) ≠ (m, n - 1 - m) := by
      intro hc
      have := congrArg Prod.fst hc
      dsimp only at this
      omega
    have hb'mem : (lfix - 1 - t, n - 1 - (lfix - 1 - t)) ∈ fillOrder D :=
      hmem _ (by omega)
    have hps := fillOrder_span_sorted D hD
    rw [hsplit] at hps hb'mem
    have hb'l1 : (lfix - 1 - t, n - 1 - (lfix - 1 - t)) ∈ l1 := by
      rcases List.mem_append.mp hb'mem with hc | hc
      · exact hc
      · rcases List.mem_cons.mp hc with hc' | hc'
        · exact absurd hc' hb'ne
        · have hle := (List.pairwise_cons.mp
            (List.pairwise_append.mp hps).2.1).1 _ hc'
          simp only [spanOf] at hle
          omega
    have hb'notl2 : (lfix - 1 - t, n - 1 - (lfix - 1 - t)) ∉ l2 := by
      intro hc
      rw [hsplit] at hnd
      exact (List.nodup_append.mp hnd).2.2 hb'l1 (List.mem_cons_of_mem _ hc)
    have htransfer : getS stF.cache (lfix - 1 - t) (n - 1 - (lfix - 1 - t))
        = getS stA.cache (lfix - 1 - t) (n - 1 - (lfix - 1 - t)) := by
      rw [fillPairs_frame ext sequ tempK S nB n lfix l2 stB stF hB _ _
        (fun p hp hc => hb'notl2 (hc ▸ hp))]
      exact fillStepFix_frame ext sequ tempK S nB n lfix stA stB _ hBstep
        _ _ hb'ne
    have hqA : (getS stA.cache (m + 1) (n - 1 - m - 1)).e = .fin qI := by
      rw [show m + 1 = lfix - 1 - t from by omega,
        show n - 1 - m - 1 = n - 1 - (lfix - 1 - t) from by omega,
        ← htransfer]
      exact hqI
    have hset := fillStepFix_fixed ext sequ tempK S nB n lfix stA stB m
      (mem_fixedBp lfix n m (by omega)) hcmp (by omega) qI hqA hBstep
    have hgetB : getS stB.cache m (n - 1 - m) =
        stemStruct ext sequ tempK n m
          (getS stA.cache (m + 1) (n - 1 - m - 1)).e := by
      rw [hset]
      exact getS_setS_self_sh stA.cache _ _ _ n hshA (by omega) (by omega)
    have hgetF : getS stF.cache m (n - 1 - m) =
        getS stB.cache m (n - 1 - m) :=
      fillPairs_frame ext sequ tempK S nB n lfix l2 stB stF hB _ _
        (fun p hp hc => h2 (hc ▸ hp))
    constructor
    · refine ⟨ext.stackE sequ m (m + 1) (n - 1 - m) (n - 1 - m - 1) tempK
        + qI, ?_⟩
      rw [hgetF, hgetB]
      unfold stemStruct
      dsimp only
      rw [hqA, add_fins]
    · intro _
      rw [hgetF, hgetB,
        show lfix - (t + 1) = lfix - 1 - t from by omega, htransfer,
        show m + 1 = lfix - 1 - t from by omega,
        show n - 1 - m - 1 = n - 1 - (lfix - 1 - t) from by omega]

/-- When every forced stem cell already links to the next cell inward,
the fixed-stem preprocessing of `gm_traceback` rewrites each cell to its
own value, leaving the cache unchanged. -/
theorem stemRewrite_id (cache : Cache) (n lfix : Nat)
    (hsh : cacheShape cache n) (hn : 2 * lfix ≤ n) (hk : 0 < lfix)
    (hcells : ∀ m, m < lfix - 1 →
      ∃ q d, getS cache m (n - 1 - m) =
        ⟨.fin q, d, [(m + 1, n - 1 - m - 1)]⟩) :
    stemRewrite cache lfix = .ok cache := by
  have key : ∀ k, 1 ≤ k → k ≤ lfix - 1 →
      stemRewriteStep cache k = .ok cache := by
    intro k hk1 hk2
    obtain ⟨q, d, hcell⟩ := hcells (k - 1) (by omega)
    unfold stemRewriteStep
    dsimp only
    rw [hsh.1, show n - k = n - 1 - (k - 1) from by omega, hcell]
    dsimp only
    rw [show (k, n - 1 - k) = (k - 1 + 1, n - 1 - (k - 1) - 1) from by
      rw [Prod.mk.injEq]
      exact ⟨by omega, by omega⟩]
    rw [show (⟨PyFloat.fin q, d, [(k - 1 + 1, n - 1 - (k - 1) - 1)]⟩ :
        Struct) = getS cache (k - 1) (n - 1 - (k - 1)) from hcell.symm]
    have hki : k - 1 < cache.length := by rw [hsh.1]; omega
    have hji : n - 1 - (k - 1) < cache[k - 1].length := by
      rw [hsh.2 _ (List.getElem_mem hki)]
      omega
    rw [setS_self cache (k - 1) (n - 1 - (k - 1)) cache[k - 1]
      (List.getElem?_eq_getElem hki) hji]
  have hfold : ∀ l : List Nat, (∀ k ∈ l, 1 ≤ k ∧ k ≤ lfix - 1) →
      l.foldl (fun (acc : Except PyErr Cache) (k : Nat) =>
        match acc with
        | .error err => .error err
        | .ok c => stemRewriteStep c k) (Except.ok cache) = .ok cache := by
    intro l
    induction l with
    | nil => intro _; rfl
    | cons k rest ih2 =>
      intro hall
      have hk1 := hall k (List.mem_cons_self _ _)
      rw [List.foldl_cons]
      show List.foldl _ (stemRewriteStep cache k) rest = _
      rw [key k hk1.1 hk1.2]
      exact ih2 (fun k' hk' => hall k' (List.mem_cons_of_mem _ hk'))
  unfold stemRewrite
  exact hfold (List.range' 1 (lfix - 1)) (fun k hkm => by
    have := List.mem_range'_1.mp hkm
    omega)

theorem gm_cache_dna_fix (extDNA extRNA : Ext) (seq : String) (temp : ℚ)
    (S : Nat × Nat → List (Nat × Nat)) (D : List (Nat × List (Nat × Nat)))
    (lfix nB : Nat) (hl : lfix ≠ 0) :
    gm_cache extDNA extRNA seq temp S D lfix nB "dna" =
      match fillPairs (fillStepFix extDNA (seq.toList.map Char.toUpper)
          (temp + 273.15) S nB seq.length lfix)
          ⟨mkCache seq.length, [], none, .posInf, none⟩ (fillOrder D) with
      | .error err => .error err
      | .ok st => .ok (st.cache, st.minS, st.minE) := by
  unfold gm_cache
  dsimp only
  rw [if_pos rfl]
  dsimp only
  rw [if_neg hl]
  rw [show (seq.toList.map Char.toUpper).length = seq.length from by
    rw [List.length_map]; rfl]
  rfl

/-- C3: with a fixed stem of length `l_fix = k > 0`, the outer `k`
prefix positions complementary to the last `k` suffix positions, the
stem pairs present in the span-grouped candidate sets, and the call
returning a structure list, that list begins with exactly the `k` pairs
`(0, n-1), (1, n-2), …, (k-1, n-k)` as the outermost chain, the first
`k-1` of them labelled as forced stack features — regardless of
energetic alternatives elsewhere in the candidate sets. -/
theorem C3_fixed_stem_chain (extDNA extRNA : Ext)
    (oe : Cache → List (Nat × Nat) → Option ℚ) (fuel : Nat) (seq : String)
    (temp : ℚ) (lfix nB : Nat)
    (S : Nat × Nat → List (Nat × Nat)) (D : List (Nat × List (Nat × Nat)))
    (bps : List (Nat × Nat)) (out : List Struct)
    (hk : 0 < lfix) (hn : 2 * lfix ≤ seq.length)
    (hD : ∀ g ∈ D, ∀ p ∈ g.2, spanOf p = g.1)
    (hnd : (fillOrder D).Nodup)
    (hmem : ∀ m, m < lfix → (m, seq.length - 1 - m) ∈ fillOrder D)
    (hcompl : ∀ m, m < lfix →
      extDNA.complement ((seq.toList.map Char.toUpper).getD m ' ')
        = (seq.toList.map Char.toUpper).getD (seq.length - 1 - m) ' ')
    (hok : gmfoldM extDNA extRNA oe fuel seq temp lfix nB "dna"
      S D bps = .ok (some out)) :
    ∃ ds : Nat → String, ∃ rest : List (String × List (Nat × Nat)),
      out.map stripDI =
        (List.range lfix).map
          (fun m => (ds m, [(m, seq.length - 1 - m)])) ++ rest
      ∧ ∀ m, m < lfix - 1 →
          ds m = "STACK:" ++ extDNA.pairLabel
            (seq.toList.map Char.toUpper) m (m + 1)
            (seq.length - 1 - m) (seq.length - 1 - m - 1) := by
  have hl0 : lfix ≠ 0 := by omega
  unfold gmfoldM at hok
  rw [gm_cache_dna_fix extDNA extRNA seq temp S D lfix nB hl0] at hok
  cases hfill : fillPairs (fillStepFix extDNA (seq.toList.map Char.toUpper)
      (temp + 273.15) S nB seq.length lfix)
      ⟨mkCache seq.length, [], none, .posInf, none⟩ (fillOrder D) with
  | error err =>
    rw [hfill] at hok
    exact absurd hok (by simp)
  | ok stF =>
    rw [hfill] at hok
    dsimp only at hok
    have hshF : cacheShape stF.cache seq.length :=
      fillPairs_shape extDNA (seq.toList.map Char.toUpper) (temp + 273.15)
        S nB seq.length lfix (fillOrder D) _ stF seq.length hfill
        (mkCache_shape seq.length)
    rw [exteriorResolve_of_lfix_ne oe stF.cache stF.minS stF.minE bps nB
      lfix seq.length hl0 (by omega) hshF] at hok
    dsimp only at hok
    cases hminS : stF.minS with
    | none =>
      rw [hminS] at hok
      exact absurd hok (by simp)
    | some m0 =>
      rw [hminS] at hok
      dsimp only at hok
      have hstem := stem_cells_final extDNA (seq.toList.map Char.toUpper)
        (temp + 273.15) S nB seq.length lfix D _ stF hn hk
        (mkCache_shape seq.length) hD hnd hmem
        (fun m _ hm => hcompl m hm) hfill
      have hfin : ∀ m, m < lfix →
          ∃ q, (getS stF.cache m (seq.length - 1 - m)).e = .fin q := by
        intro m hm
        have hh := (hstem (lfix - 1 - m) (by omega)).1
        rw [show lfix - 1 - (lfix - 1 - m) = m from by omega] at hh
        exact hh
      have hchain : ∀ m, m < lfix - 1 →
          getS stF.cache m (seq.length - 1 - m) =
            stemStruct extDNA (seq.toList.map Char.toUpper) (temp + 273.15)
              seq.length m
              (getS stF.cache (m + 1) (seq.length - 1 - (m + 1))).e := by
        intro m hm
        have hh := (hstem (lfix - 1 - m) (by omega)).2 (by omega)
        rw [show lfix - 1 - (lfix - 1 - m) = m from by omega,
          show lfix - (lfix - 1 - m) = m + 1 from by omega] at hh
        exact hh
      have hcells : ∀ m, m < lfix - 1 →
          ∃ q d, getS stF.cache m (seq.length - 1 - m) =
            ⟨.fin q, d, [(m + 1, seq.length - 1 - m - 1)]⟩ := by
        intro m hm
        obtain ⟨q', hq'⟩ := hfin (m + 1) (by omega)
        refine ⟨extDNA.stackE (seq.toList.map Char.toUpper) m (m + 1)
            (seq.length - 1 - m) (seq.length - 1 - m - 1) (temp + 273.15)
            + q',
          "STACK:" ++ extDNA.pairLabel (seq.toList.map Char.toUpper) m
            (m + 1) (seq.length - 1 - m) (seq.length - 1 - m - 1), ?_⟩
        rw [hchain m hm]
        unfold stemStruct
        rw [hq', add_fins]
      have hcells' : ∀ m, m < lfix - 1 →
          (getS stF.cache m (seq.length - 1 - m)).ij =
            [(m + 1, seq.length - 1 - (m + 1))] := by
        intro m hm
        obtain ⟨q, d, hc⟩ := hcells m hm
        rw [hc]
        dsimp only
        rw [show seq.length - 1 - m - 1 = seq.length - 1 - (m + 1) from by
          omega]
      have htb : tb_go fuel 0 (seq.length - 1) stF.cache [] = some out := by
        unfold gm_traceback at hok
        by_cases h1l : 1 < lfix
        · rw [if_pos h1l] at hok
          rw [stemRewrite_id stF.cache seq.length lfix hshF hn hk hcells]
            at hok
          dsimp only at hok
          rw [hshF.1] at hok
          exact Except.ok.inj hok
        · have hl1 : lfix = 1 := by omega
          rw [if_neg h1l, if_pos hl1] at hok
          rw [hshF.1] at hok
          exact Except.ok.inj hok
      by_cases hfuel : lfix - 1 ≤ fuel
      · have hdec : fuel = fuel - (lfix - 1) + (lfix - 1) := by omega
        rw [hdec] at htb
        rw [chain_unroll stF.cache seq.length lfix hcells' (lfix - 1)
          (Nat.le_refl _) (fuel - (lfix - 1)) []] at htb
        rw [List.nil_append] at htb
        obtain ⟨rest, hshape2⟩ := tb_go_shape _ _ _ _ _ _ htb
        have hrange : List.range lfix =
            List.range (lfix - 1) ++ [lfix - 1] := by
          conv_lhs => rw [show lfix = lfix - 1 + 1 from by omega]
          rw [List.range_succ]
        refine ⟨fun m => (getS stF.cache m (seq.length - 1 - m)).desc,
          rest, ?_, ?_⟩
        · rw [hshape2, hrange, List.map_append, List.map_map]
          rfl
        · intro m hm
          show (getS stF.cache m (seq.length - 1 - m)).desc = _
          rw [hchain m hm]
          rfl
      · exfalso
        have hcu := chain_unroll stF.cache seq.length lfix hcells' fuel
          (by omega) 0 []
        rw [Nat.zero_add] at hcu
        rw [htb] at hcu
        exact absurd hcu.symm (by simp [tb_go])

theorem C3_fixed_stem_chain_witness :
    gmfoldM extW extW (fun _ _ => none) 5 "AATT" 37 1 4 "dna"
        (fun _ => []) [(3, [(0, 3)])] []
      = .ok (some [⟨.fin 3, "HAIRPIN:0,1/3,2", [(0, 3)]⟩])
    ∧ ∃ ds : Nat → String, ∃ rest : List (String × List (Nat × Nat)),
      [(⟨.fin 3, "HAIRPIN:0,1/3,2", [(0, 3)]⟩ : Struct)].map stripDI =
        (List.range 1).map
          (fun m => (ds m, [(m, "AATT".length - 1 - m)])) ++ rest
      ∧ ∀ m, m < 1 - 1 →
          ds m = "STACK:" ++ extW.pairLabel
            ("AATT".toList.map Char.toUpper) m (m + 1)
            ("AATT".length - 1 - m) ("AATT".length - 1 - m - 1) := by
  have hrun : gmfoldM extW extW (fun _ _ => none) 5 "AATT" 37 1 4 "dna"
      (fun _ => []) [(3, [(0, 3)])] []
      = .ok (some [⟨.fin 3, "HAIRPIN:0,1/3,2", [(0, 3)]⟩]) := by
    show (Except.ok (some [⟨roundTo1 ((PyFloat.fin 3).sub (.fin 0)),
        "HAIRPIN:" ++ extW.pairLabel ("AATT".toList.map Char.toUpper) 0 1 3 2,
        [(0, 3)]⟩]) : Except PyErr (Option (List Struct)))
      = .ok (some [⟨.fin 3, "HAIRPIN:0,1/3,2", [(0, 3)]⟩])
    rw [sub_fins, show (3 : ℚ) - 0 = 3 from by norm_num,
      roundTo1_tenth 3 (by norm_num [tenth])]
    rfl
  exact ⟨hrun,
    C3_fixed_stem_chain extW extW (fun _ _ => none) 5 "AATT" 37 1 4
      (fun _ => []) [(3, [(0, 3)])] [] _ (by decide) (by decide)
      (by decide) (by decide) (by decide) (by decide) hrun⟩

end GMFold
